import Mathlib

/-!
# Verification of the taskforce process supervisor

A shallow embedding of the parts of the `taskforce` codebase covered by the
frozen claims, together with proofs settling each claim.

Conventions used throughout:
* Python `None` is embedded as `Option.none`; fallible code returns `Except`
  or `Option`.
* Python `dict`s are embedded as association lists whose keys are kept
  distinct and in insertion order, matching CPython's ordered-dict
  semantics.
* Machine-level facts (wait(2) status words, inotify masks) are embedded as
  `Nat` with explicit bit arithmetic following the glibc macro definitions.
* Clock readings are embedded as `Int`.
-/

set_option maxRecDepth 40000

namespace Taskforce

/-! ## utils.py: signal tables (`sigmap`, `signame`, `signum`)

`sigmap` is built in `utils.py` as
`dict((signo, signam) for signam, signo in signal.__dict__.items() if ...)`,
keyed by signal number.  We embed the resulting table for the Linux signal
module: one `SIG*` name per signal number (for aliased numbers the name the
dict comprehension leaves in place is used), signal numbers as plain
naturals. -/

def sigmap : List (Nat × String) :=
  [(1, "SIGHUP"), (2, "SIGINT"), (3, "SIGQUIT"), (4, "SIGILL"), (5, "SIGTRAP"),
   (6, "SIGABRT"), (7, "SIGBUS"), (8, "SIGFPE"), (9, "SIGKILL"), (10, "SIGUSR1"),
   (11, "SIGSEGV"), (12, "SIGUSR2"), (13, "SIGPIPE"), (14, "SIGALRM"), (15, "SIGTERM"),
   (17, "SIGCHLD"), (18, "SIGCONT"), (19, "SIGSTOP"), (20, "SIGTSTP"), (21, "SIGTTIN"),
   (22, "SIGTTOU"), (23, "SIGURG"), (24, "SIGXCPU"), (25, "SIGXFSZ"), (26, "SIGVTALRM"),
   (27, "SIGPROF"), (28, "SIGWINCH"), (29, "SIGIO"), (30, "SIGPWR"), (31, "SIGSYS"),
   (34, "SIGRTMIN"), (64, "SIGRTMAX")]

/-- Association-list lookup, the embedding of Python `dict` indexing /
`dict.get`.  Every dict built in this development keeps its keys distinct
(as a Python dict does), so taking the first match is exact. -/
def dictGet {α β : Type} [DecidableEq α] : List (α × β) → α → Option β
  | [], _ => none
  | (k, v) :: rest, key => if k = key then some v else dictGet rest key

/-- `utils.signame`: symbolic name for a signal number, falling back to
`'SIG' + str(sig).lower()` (lower-casing decimal digits is the identity). -/
def signame (sig : Nat) : String :=
  match dictGet sigmap sig with
  | some nam => nam
  | none => "SIG" ++ toString sig

/-- Key type of `signum.namemap`: Python keys are either ints or strings. -/
inductive SigKey where
  | int (n : Nat)
  | str (s : String)
deriving DecidableEq

/-- Python `str.upper` on one ASCII character. -/
def pyCharUpper (c : Char) : Char :=
  if 97 ≤ c.toNat ∧ c.toNat ≤ 122 then Char.ofNat (c.toNat - 32) else c

/-- Python `str.lower` on one ASCII character. -/
def pyCharLower (c : Char) : Char :=
  if 65 ≤ c.toNat ∧ c.toNat ≤ 90 then Char.ofNat (c.toNat + 32) else c

/-- Python `str.upper` (ASCII as used by signal names). -/
def pyUpper (s : String) : String := ⟨s.data.map pyCharUpper⟩

/-- Python `str.lower` (ASCII as used by signal names). -/
def pyLower (s : String) : String := ⟨s.data.map pyCharLower⟩

/-- The abbreviation `nam.replace('SIG', '', 1)` used by `signum`: every name
in `sigmap` starts with `SIG`, so removing the first occurrence of `SIG`
drops that prefix. -/
def sigAbbrevOf (nam : String) : String :=
  match nam.data with
  | 'S' :: 'I' :: 'G' :: rest => ⟨rest⟩
  | _ => nam

/-- The lazily-built `signum.namemap`: for each `(num, nam)` in `sigmap` it
records `num`, `str(num)`, `nam.upper()`, `nam.lower()` and the
`SIG`-stripped abbreviation in upper and lower case.  (`num` and `int(num)`,
resp. `str(num)` and `str(int(num))`, coincide with numbers embedded as
naturals.) -/
def signumNamemap : List (SigKey × Nat) :=
  sigmap.foldl (fun acc p =>
    let num := p.1
    let nam := p.2
    let ab := sigAbbrevOf nam
    acc ++ [(SigKey.int num, num), (SigKey.str (toString num), num),
            (SigKey.str (pyUpper nam), num), (SigKey.str (pyLower nam), num)] ++
      (if ab = nam then []
       else [(SigKey.str (pyUpper ab), num), (SigKey.str (pyLower ab), num)])) []

/-- `utils.signum`: map a signal designation to its number via
`namemap.get`, `None` for unrecognized input. -/
def signum (key : SigKey) : Option Nat :=
  dictGet signumNamemap key

/-! ## utils.py: `statusfmt` and the wait-status macros

The `os.WIF*` macros are embedded following their glibc definitions on a raw
wait status word. -/

/-- glibc `WTERMSIG`: low seven bits of the status. -/
def wtermsig (status : Nat) : Nat := status % 128

/-- glibc `WIFSIGNALED`: the low seven bits are neither 0 (normal exit) nor
0x7f (stopped). -/
def wifsignaled (status : Nat) : Bool :=
  status % 128 ≠ 0 && status % 128 ≠ 127

/-- glibc `WIFEXITED`: the termination signal field is zero. -/
def wifexited (status : Nat) : Bool := status % 128 = 0

/-- glibc `WEXITSTATUS`: the second byte of the status. -/
def wexitstatus (status : Nat) : Nat := status / 256 % 256

/-- glibc `WCOREDUMP`: bit 7 (`0x80`) of the status. -/
def wcoredump (status : Nat) : Bool := 128 ≤ status % 256

/-- One lower-case hexadecimal digit. -/
def hexDigit (n : Nat) : Char :=
  if n < 10 then Char.ofNat (48 + n) else Char.ofNat (87 + n)

/-- Lower-case hexadecimal digit string of `n` (no padding). -/
def hexDigits : Nat → List Char
  | 0 => []
  | n + 1 => hexDigits ((n + 1) / 16) ++ [hexDigit ((n + 1) % 16)]

/-- Python `'%04x' % status`: lower-case hex, zero-padded to a minimum
width of four digits (wider statuses keep all their digits). -/
def hex04 (n : Nat) : String :=
  let ds := hexDigits n
  ⟨List.replicate (4 - ds.length) '0' ++ ds⟩

/-- `utils.statusfmt`: render an exit status as text.  The
`' (core dumped)'` suffix is appended after the branch selection whenever
`WCOREDUMP` holds, in the source just as here. -/
def statusfmt (status : Nat) : String :=
  let msg :=
    if status = 0 then "exited ok"
    else if wifsignaled status then "died on " ++ signame (wtermsig status)
    else if wifexited status && wexitstatus status > 0 then
      "exited " ++ toString (wexitstatus status)
    else "unknown exit code 0x" ++ hex04 status
  if wcoredump status then msg ++ " (core dumped)" else msg

/-! ## task.py: `_fmt_context`

Context values are Python objects; the cases exercised here are strings and
`None`, embedded as `Option String`.  A context maps names to values. -/

/-- A formatting context (`task` context dict). -/
def Ctx : Type := List (String × Option String)

/-- A `\w` word character (ASCII letters, digits, underscore). -/
def isWordChar (c : Char) : Bool :=
  (48 ≤ c.toNat && c.toNat ≤ 57) || (65 ≤ c.toNat && c.toNat ≤ 90) ||
    (97 ≤ c.toNat && c.toNat ≤ 122) || c.toNat = 95

/-- The anchored regex `^\{(\w+)\}$` of `_fmt_context_isvar`: the whole
argument is a single `{name}` placeholder; yields the name. -/
def fmt_context_isvar (arg : String) : Option String :=
  match arg.data with
  | c :: rest =>
    if c = Char.ofNat 123 ∧ rest.getLast? = some (Char.ofNat 125) ∧
        rest.dropLast ≠ [] ∧ rest.dropLast.all isWordChar then
      some ⟨rest.dropLast⟩
    else none
  | [] => none

/-- One step of the scanner behind `str.format`: split the character list at
the first closing brace, returning the field text and the remainder. -/
def splitField : List Char → Option (List Char × List Char)
  | [] => none
  | c :: rest =>
    if c = Char.ofNat 125 then some ([], rest)
    else (splitField rest).map (fun p => (c :: p.1, p.2))

/-- Core of `arg.format(**context)` for the `{name}` placeholder language
used by taskforce configurations: `{{`/`}}` escapes, `{name}` substitution
(`None` values render as `'None'`, as `object.__format__` does), and errors
for a lone brace, an unterminated or empty field, a name absent from the
context (`KeyError`) or a field that is not a plain name.  The fuel is one
more than the input length; every step consumes at least one character. -/
def pyformatAux (ctx : Ctx) : Nat → List Char → Except Unit (List Char)
  | 0, _ => .error ()
  | fuel + 1, cs =>
    match cs with
    | [] => .ok []
    | c :: rest =>
      if c = Char.ofNat 123 then
        match rest with
        | c' :: rest' =>
          if c' = Char.ofNat 123 then
            (pyformatAux ctx fuel rest').map (c :: ·)
          else
            match splitField rest with
            | none => .error ()
            | some (field, rest₂) =>
              if field = [] ∨ ¬field.all isWordChar then .error ()
              else
                match dictGet ctx ⟨field⟩ with
                | none => .error ()
                | some v =>
                  (pyformatAux ctx fuel rest₂).map
                    (fun out => (match v with
                      | none => "None".data
                      | some s => s.data) ++ out)
        | [] => .error ()
      else if c = Char.ofNat 125 then
        match rest with
        | c' :: rest' =>
          if c' = Char.ofNat 125 then (pyformatAux ctx fuel rest').map (c :: ·)
          else .error ()
        | [] => .error ()
      else
        (pyformatAux ctx fuel rest).map (c :: ·)

/-- `arg.format(**context)` on the placeholder language above. -/
def pyformat (ctx : Ctx) (arg : String) : Except Unit String :=
  (pyformatAux ctx (arg.data.length + 1) arg.data).map (fun cs => ⟨cs⟩)

/-- The `for attempt in range(0, 10)` loop of `_fmt_context` for one
argument.  Each pass first applies the `_fmt_context_isvar` guard (a whole
argument that is one placeholder whose context value is `None` stops the
loop with `res = None`, which is what gets appended); otherwise one
formatting pass runs: an error yields the last successful value, an
unchanged result stops, a changed result is fed back in. -/
def fmt_context_loop (ctx : Ctx) : Nat → String → Option String
  | 0, arg => some arg
  | fuel + 1, arg =>
    match fmt_context_isvar arg with
    | some name =>
      if dictGet ctx name = some none then none
      else
        match pyformat ctx arg with
        | .error _ => some arg
        | .ok res => if res = arg then some arg else fmt_context_loop ctx fuel res
    | none =>
      match pyformat ctx arg with
      | .error _ => some arg
      | .ok res => if res = arg then some arg else fmt_context_loop ctx fuel res

/-- `task._fmt_context` applied to a single string argument (the list form
maps this over the elements).  The result is a Python value: `none` is the
literal `None`. -/
def fmt_context (ctx : Ctx) (arg : String) : Option String :=
  fmt_context_loop ctx 10 arg

/-- `k` successful formatting passes starting from `arg` (an erroring pass
keeps the current value), used to state how many passes `_fmt_context`
makes. -/
def fmtIter (ctx : Ctx) : Nat → String → String
  | 0, arg => arg
  | k + 1, arg =>
    match pyformat ctx arg with
    | .ok r => fmtIter ctx k r
    | .error _ => arg

/-! ## task.py: per-slot process state and the task state machine

Timestamps (`time.time()` values) are embedded as integers (the state
machine only subtracts and compares times, so the embedding preserves every
branch); a state flag holds `some t` when set at time `t` and `none` when
it is Python `None`. -/

/-- `task.py` module constant `reexec_delay = 5`: delay before a task's
process will be re-executed. -/
def reexec_delay : Int := 5

/-- `task.py` module constant `sigkill_escalation = 5`. -/
def sigkill_escalation : Int := 5

/-- `class ProcessState`: one slot of `task._proc_state`. -/
structure ProcessState where
  pid : Option Nat := none
  exit_code : Option Nat := none
  started : Option Int := none
  exited : Option Int := none
  next_sig : Option Int := none
  pending_sig : Option Nat := none
deriving DecidableEq

/-- Outcome of the per-slot body of the start loop in `task._start`. -/
inductive SlotOutcome where
  | alreadyRunning
  | clockBackward
  | backoff
  | execd
deriving DecidableEq

/-- The body of `for instance in range(needed)` in `task._start` for a slot
that already exists in `_proc_state` (`instance < len(self._proc_state)`):
skip a slot with a live pid; treat a missing `started` as now; on a
negative delta (clock went backwards) reset `started` and skip; within
`reexec_delay` of `started` skip; otherwise exec a new process, recording
its pid and the start time. -/
def start_slot (proc : ProcessState) (now : Int) (newpid : Nat) :
    SlotOutcome × ProcessState :=
  match proc.pid with
  | some _ => (.alreadyRunning, proc)
  | none =>
    let started := match proc.started with
      | none => now
      | some s => s
    let proc := { proc with started := some started }
    let last_start_delta := now - started
    if last_start_delta < 0 then (.clockBackward, { proc with started := some now })
    else if last_start_delta < reexec_delay then (.backoff, proc)
    else (.execd, { proc with pid := some newpid, started := some now })

/-- The `else` arm of the same loop (`instance ≥ len(self._proc_state)`): a
freshly grown slot is exec'd immediately, with no back-off check. -/
def start_slot_grown (now : Int) (newpid : Nat) : SlotOutcome × ProcessState :=
  (.execd, { pid := some newpid, started := some now })

/-- The runtime state of one `task` (the fields the claims are about).
`control` holds `config_running.get('control')`. -/
structure TaskState where
  proc_state : List ProcessState := []
  starting : Option Int := none
  started : Option Int := none
  suspended : Option Int := none
  stopping : Option Int := none
  terminated : Option Int := none
  killed : Option Int := none
  stopped : Option Int := none
  dnr : Option Int := none
  limit : Option Int := none
  last_status : Option Nat := none
  control : Option String := none
deriving DecidableEq

/-- `task.get_pids()`: the live pids recorded in the slots. -/
def get_pids (s : TaskState) : List Nat :=
  s.proc_state.filterMap (·.pid)

/-- `task._reset_state()`: clear every state flag (slots are untouched). -/
def reset_state (s : TaskState) : TaskState :=
  { s with starting := none, started := none, suspended := none,
           stopping := none, terminated := none, killed := none,
           stopped := none, dnr := none, limit := none }

/-- Spec invariant under test: `stopped ⇒ all slots have pid == null`. -/
def stopped_inv (s : TaskState) : Prop :=
  s.stopped = none ∨ ∀ p ∈ s.proc_state, p.pid = none

/-- Externally visible actions of `task.stop`. -/
inductive StopAction where
  | sigterm
  | sigkill
  | fireRestartEvent
  | fireStopEvent
deriving DecidableEq

/-- `task.stop()`.  Parameters mirror what the method reads from its
surroundings: the clock, `legion.is_exiting()`, whether the legion or task
is resetting, and whether the running config carries `restart`/`stop`
events (after `_make_event_target` filtering).  Returns the new state, the
method's boolean result, and the signal/event actions performed. -/
def task_stop (s : TaskState) (now : Int) (legion_exiting resetting
    has_restart_event has_stop_event : Bool) :
    TaskState × Bool × List StopAction :=
  if s.stopped.isSome then (s, false, [])
  else
    let running := (get_pids s).length
    if s.stopping.isSome ∧ running = 0 then
      ({ reset_state s with stopped := some now }, false, [])
    else if s.terminated.isSome then
      if s.killed.isSome then (s, true, [])
      else if s.terminated.getD 0 + sigkill_escalation < now then
        ({ s with killed := some now }, true, [.sigkill])
      else (s, true, [])
    else
      let limit_exceeded := s.limit.isSome ∧ now > s.limit.getD 0
      if ¬limit_exceeded ∧ s.stopping.isSome ∧ legion_exiting = false then
        (s, false, [])
      else
        let s := if s.stopping.isSome then s else { s with stopping := some now }
        let s := { s with terminated := some now }
        if resetting ∧ has_restart_event then (s, true, [.fireRestartEvent])
        else if has_stop_event then (s, true, [.fireStopEvent])
        else (s, true, [.sigterm])

/-- Clear one slot as `event_target.proc_exit` does once it has located the
exiting pid's slot. -/
def clearSlot (p : ProcessState) (exit_code : Nat) (now : Int) : ProcessState :=
  { p with pid := none, exit_code := some exit_code, exited := some now,
           next_sig := none, pending_sig := none }

/-- Locate and clear the slot the `for p in self._parent._proc_state` scan
of `proc_exit` ends up with: the scan keeps overwriting `proc`, so the
*last* slot whose pid matches is the one cleared.  `none` when no slot
matches (the handler logs and returns). -/
def clearLastMatch (procs : List ProcessState) (pid exit_code : Nat)
    (now : Int) : Option (List ProcessState) :=
  match procs with
  | [] => none
  | p :: rest =>
    match clearLastMatch rest pid exit_code now with
    | some rest' => some (p :: rest')
    | none =>
      if p.pid = some pid then some (clearSlot p exit_code now :: rest)
      else none

/-- `event_target.proc_exit`: record the exit in the slot; when the exiting
pid was the last live pid of the task, clear `started`/`stopping`, set
`stopped`, and fire `onexit` (the boolean result). -/
def task_proc_exit (s : TaskState) (pid exit_code : Nat) (now : Int) :
    TaskState × Bool :=
  match clearLastMatch s.proc_state pid exit_code now with
  | none => (s, false)
  | some procs =>
    let s := { s with proc_state := procs, last_status := some exit_code }
    if (get_pids s).length = 0 then
      ({ s with started := none, stopping := none, stopped := some now }, true)
    else (s, false)

/-- Outcome of the prologue of `task._start` (its lines up to and including
the `if self._stopped:` block). -/
inductive StartOutcome where
  | stoppingBusy
  | closed
  | onceDone
  | proceed
deriving DecidableEq

/-- The prologue of `task._start`: a stopping task defers to `stop()`; an
`event`-control task that is not yet stopped is marked stopped on the spot
(`as if they ran at start`), with no check of the slots' pids; a stopped
task is then closed (`dnr`), left alone (`once`/`event` controls) or reset
for restart.  Only the `proceed` outcome goes on to the exec loop, whose
per-slot behaviour is `start_slot`/`start_slot_grown`. -/
def start_prologue (s : TaskState) (now : Int) : TaskState × StartOutcome :=
  if s.stopping.isSome then (s, .stoppingBusy)
  else
    let once := s.control = some "once" ∨ s.control = some "event"
    let s := if s.control = some "event" ∧ s.stopped = none then
               { s with stopped := some now }
             else s
    if s.stopped.isSome then
      if s.dnr.isSome then (s, .closed)
      else if once then (s, .onceDone)
      else (reset_state s, .proceed)
    else (s, .proceed)

/-- The per-task configuration elements `task._command_change` compares
(the dict is embedded as a fixed field set). -/
structure TaskConf where
  control : Option String := none
  count : Option Nat := none
  commands : List (String × List String) := []
  events : List (String × String) := []
  roles : List String := []
  user : Option String := none
  group : Option String := none
  cwd : Option String := none
  procname : Option String := none
  time_limit : Option Int := none
  pidfile : Option String := none
  onexit : List (String × String) := []
  requires : List String := []
  start_delay : Option Nat := none
  defines : List (String × String) := []
  defaults : List (String × String) := []
deriving DecidableEq

/-- The config-derived part of the formatting context compared by
`_command_change` (the environment and host keys are identical on both
sides and drop out of the comparison). -/
def contextOf (conf : TaskConf) : List (String × String) :=
  conf.defines ++ conf.defaults

/-- `task._command_change` when a running config exists: every element
except `control`, `pidfile`, `onexit`, `requires` and `start_delay` is
compared, then the formatting contexts are compared. -/
def command_change (running pending : TaskConf) : Bool :=
  if running.count = pending.count ∧ running.commands = pending.commands ∧
      running.events = pending.events ∧ running.roles = pending.roles ∧
      running.user = pending.user ∧ running.group = pending.group ∧
      running.cwd = pending.cwd ∧ running.procname = pending.procname ∧
      running.time_limit = pending.time_limit ∧
      running.defines = pending.defines ∧ running.defaults = pending.defaults ∧
      contextOf running = contextOf pending then
    false
  else true

/-! ## task.py: `legion.task_list` and `task.get_requires`

A task is embedded by the data `task_list` consumes: its name, the names in
its `requires` list (requirement entries are taken literally; context
formatting of the entries is `fmt_context`'s concern), and the result of
`participant()`. -/

/-- One `task` as seen by the scheduler; `participant` is the result of the
`participant()` role check. -/
structure TaskNode where
  name : String
  requires : List String
  participant : Bool
deriving DecidableEq

/-- The scoped tasks: `[t for t in self._tasks if t.participant()]`. -/
def scopedOf (tasks : List TaskNode) : List TaskNode :=
  tasks.filter (·.participant)

/-- Requirement-name resolution through `legion._tasknames` (which holds
every task, scoped or not); an unknown name raises `TaskError` (carried
here as the pair of task name and offending requirement). -/
def resolveNames (tasks : List TaskNode) (tname : String) :
    List String → Except (String × String) (List TaskNode)
  | [] => .ok []
  | r :: rest =>
    match tasks.find? (fun u => u.name = r) with
    | none => .error (tname, r)
    | some u =>
      match resolveNames tasks tname rest with
      | .ok rl => .ok (u :: rl)
      | .error e => .error e

/-- `task.get_requires` for the scheduler: resolve every `requires` entry. -/
def resolveRequires (tasks : List TaskNode) (t : TaskNode) :
    Except (String × String) (List TaskNode) :=
  resolveNames tasks t.name t.requires

/-- The `requires = {}` dict built at the top of `task_list`:
`requires[t] = t.get_requires()` for each scoped task, failing on the first
unresolvable requirement. -/
def buildRequires (tasks : List TaskNode) :
    List TaskNode → Except (String × String) (List (TaskNode × List TaskNode))
  | [] => .ok []
  | t :: rest =>
    match resolveRequires tasks t with
    | .error e => .error e
    | .ok rl =>
      match buildRequires tasks rest with
      | .ok rest' => .ok ((t, rl) :: rest')
      | .error e => .error e

deriving instance DecidableEq for Except

/-- The failures `task_list` can raise as `TaskError`s. -/
inductive TaskListError where
  | unknownRequire (taskname required : String)
  | startupOrderConflict (cycle : Nat) (processed remaining : List String)
  | fuelExhausted
deriving DecidableEq

/-- One step of the `for t in tasks` scan inside the scheduling loop: skip a
task already in `done`; count the requirements whose name is in `done`
(`needs`) and schedule the task when all of them are. -/
def sched_step (reqs : List (TaskNode × List TaskNode))
    (acc : List String × List TaskNode × Bool) (t : TaskNode) :
    List String × List TaskNode × Bool :=
  let done := acc.1
  let order := acc.2.1
  let changed := acc.2.2
  if done.contains t.name then acc
  else
    let rlist := (dictGet reqs t).getD []
    let needs := rlist.countP (fun r => done.contains r.name)
    if needs = rlist.length then (done ++ [t.name], order ++ [t], true)
    else (done, order, changed)

/-- One full pass of `while len(tasks) > len(start_order)`'s body. -/
def sched_pass (reqs : List (TaskNode × List TaskNode))
    (inscope : List TaskNode) (acc : List String × List TaskNode × Bool) :
    List String × List TaskNode × Bool :=
  inscope.foldl (sched_step reqs) acc

/-- The scheduling loop of `task_list`.  On a pass that schedules nothing
the source raises
`TaskError(None, "At cycle %d, startup order conflict, processed %s, remaining %s")`
whose remaining list is `[t._name for t in set(tasks).difference(done)]`;
since `tasks` holds task objects and `done` holds name strings, the set
difference removes nothing and the remaining list names every scoped task.
The fuel only bounds the recursion; `task_list` supplies enough that
`fuelExhausted` is unreachable. -/
def sched_loop (inscope : List TaskNode) (reqs : List (TaskNode × List TaskNode)) :
    Nat → List String → List TaskNode → Nat → Except TaskListError (List TaskNode)
  | fuel, done, order, cycle =>
    if inscope.length ≤ order.length then .ok order
    else
      match fuel with
      | 0 => .error .fuelExhausted
      | fuel' + 1 =>
        let res := sched_pass reqs inscope (done, order, false)
        if res.2.2 then sched_loop inscope reqs fuel' res.1 res.2.1 (cycle + 1)
        else .error (.startupOrderConflict (cycle + 1) res.1 (inscope.map (·.name)))

/-- `legion.task_list()`: scoped tasks in dependency order. -/
def task_list (tasks : List TaskNode) : Except TaskListError (List TaskNode) :=
  let inscope := scopedOf tasks
  match buildRequires tasks inscope with
  | .error e => .error (.unknownRequire e.1 e.2)
  | .ok reqs => sched_loop inscope reqs (inscope.length + 1) [] [] 0

/-- Absence of requirement cycles, witnessed by a rank function that
strictly decreases along requirement edges of scoped tasks. -/
def NoRequireCycles (tasks : List TaskNode) (rank : String → Nat) : Prop :=
  ∀ t ∈ scopedOf tasks, ∀ r ∈ t.requires, rank r < rank t.name

instance (tasks : List TaskNode) (rank : String → Nat) :
    Decidable (NoRequireCycles tasks rank) := by
  unfold NoRequireCycles
  infer_instance

/-- The requirement names the scheduling loop consults for a task: the
names of its resolved `requires` dict entry. -/
def reqNamesOf (reqs : List (TaskNode × List TaskNode)) (t : TaskNode) :
    List String :=
  ((dictGet reqs t).getD []).map (·.name)

/-- Each task in the list has all its requirement names among the names
already seen (those of its predecessors and the given prefix): the
precedence property `task_list`'s output is claimed to have. -/
def PrecOK (reqs : List (TaskNode × List TaskNode)) :
    List String → List TaskNode → Prop
  | _, [] => True
  | seen, t :: rest =>
    (∀ r ∈ reqNamesOf reqs t, r ∈ seen) ∧ PrecOK reqs (seen ++ [t.name]) rest

/-- Each task in the list has a name not seen before it. -/
def FreshNames : List String → List TaskNode → Prop
  | _, [] => True
  | seen, a :: rest => a.name ∉ seen ∧ FreshNames (seen ++ [a.name]) rest

/-- C1 counterexample configuration: scoped `C` with no requirements,
scoped `A` requiring `C` and the *unscoped* `B`, and `B` filtered out by
roles (`participant()` false). -/
def c1Tasks : List TaskNode :=
  [⟨"C", [], true⟩, ⟨"A", ["C", "B"], true⟩, ⟨"B", [], false⟩]

/-- A rank function witnessing that `c1Tasks` has no requirement cycles. -/
def c1Rank : String → Nat := fun n => if n = "A" then 1 else 0

/-! ## Dict assignment

`d[k] = v` on a Python dict: replace in place when the key exists, append
otherwise. -/

/-- Python `d[k] = v`: replace the binding in place when the key exists
(one binding per key), append otherwise. -/
def dictSet {α β : Type} [DecidableEq α] : List (α × β) → α → β → List (α × β)
  | [], k, v => [(k, v)]
  | p :: rest, k, v =>
    if p.1 = k then (k, v) :: rest else p :: dictSet rest k v

/-! ## watch_files.py: the inotify arm of `watch.get`

An inotify event carries a watch descriptor and a mask; `fds_open` maps
watch descriptors to paths.  `get` drains batches of events (one batch per
`inotifyx.get_events` call, an empty batch ending the loop), aggregates
them per path by OR-ing masks into `evagg`, then post-processes each
aggregated path and returns the sorted list of changed paths. -/

def IN_MODIFY : Nat := 2
def IN_ATTRIB : Nat := 4
def IN_DELETE_SELF : Nat := 1024
def IN_MOVE_SELF : Nat := 2048
def IN_IGNORED : Nat := 32768

/-- One inotify event. -/
structure InotifyEvent where
  wd : Nat
  mask : Nat
deriving DecidableEq

/-- Fold one event into `evagg` (`evagg[path].mask |= ev.mask` for a known
path, first occurrence inserts; events for unknown watch descriptors are
skipped, whether `IN_IGNORED` or merely warned about). -/
def evaggAdd (fds_open : List (Nat × String)) (evagg : List (String × Nat))
    (ev : InotifyEvent) : List (String × Nat) :=
  match dictGet fds_open ev.wd with
  | none => evagg
  | some path =>
    match dictGet evagg path with
    | some m => dictSet evagg path (m ||| ev.mask)
    | none => evagg ++ [(path, ev.mask)]

/-- The `while True` read loop: an empty batch breaks; after a non-empty
batch, a set limit that the number of aggregated changes has reached
breaks. -/
def inotifyRead (fds_open : List (Nat × String)) (limit : Option Nat) :
    List (List InotifyEvent) → List (String × Nat) → List (String × Nat)
  | [], evagg => evagg
  | batch :: rest, evagg =>
    if batch = [] then evagg
    else
      let evagg := batch.foldl (evaggAdd fds_open) evagg
      match limit with
      | some l => if l ≤ evagg.length then evagg
                  else inotifyRead fds_open limit rest evagg
      | none => inotifyRead fds_open limit rest evagg

/-- The `xxx` attribute read by the `IN_ATTRIB` branch of `watch.get`.  No
statement in `watch_files.py` ever assigns an attribute of that name, so
the attribute lookup always raises `AttributeError`; the inode table that
`_add_file` populates lives under the name `_inx_inode` instead. -/
def watch_xxx : Option (List (String × Nat)) := none

/-- `watch._add_file`, inotify arm: record the freshly stat'ed inode of the
path in `self._inx_inode`. -/
def inx_record (inx_inode : List (String × Nat)) (path : String) (ino : Nat) :
    List (String × Nat) :=
  dictSet inx_inode path ino

/-- The `IN_ATTRIB` handling inside `watch.get`: `file_move_del` as computed
by the `try` block.  `stat_inode` is the result of `os.stat(path)` (`none`
when the stat raises).  A successful stat still ends in the `except` branch
because `self.xxx[path]` raises `AttributeError`. -/
def attribMoveDel (stat_inode : Option Nat) (path : String) : Bool :=
  match stat_inode with
  | none => true
  | some ino =>
    match watch_xxx with
    | none => true
    | some tbl =>
      match dictGet tbl path with
      | none => true
      | some recorded => if ino = recorded then false else true

/-- The exception `watch._disappeared` raises for a path that was not added
with `missing=True`. -/
inductive WatchError where
  | removedOrRenamed (path : String)
deriving DecidableEq

/-- Post-processing of one aggregated `(path, mask)` item of the inotify
arm: `IN_DELETE_SELF`/`IN_MOVE_SELF` go to `_disappeared`; otherwise an
`IN_ATTRIB` bit runs the simfs workaround and goes to `_disappeared` when
`file_move_del` came out true.  `_disappeared` raises unless the path's
`missing` flag is set.  In every non-raising case the path is recorded in
`last_changes`. -/
def inotifyFinalizeItem (missing : String → Bool) (stat_inode : String → Option Nat)
    (p : String × Nat) : Except WatchError Unit :=
  if p.2 &&& (IN_DELETE_SELF ||| IN_MOVE_SELF) = 0 then
    if p.2 &&& IN_ATTRIB = 0 then .ok ()
    else if attribMoveDel (stat_inode p.1) p.1 then
      if missing p.1 then .ok () else .error (.removedOrRenamed p.1)
    else .ok ()
  else
    if missing p.1 then .ok () else .error (.removedOrRenamed p.1)

/-- Post-process every aggregated item in insertion order; the first raise
aborts `get` (the Python exception propagates out of the loop).  On success
the `last_changes` keys are the aggregated paths, in order. -/
def inotifyFinalize (missing : String → Bool) (stat_inode : String → Option Nat) :
    List (String × Nat) → Except WatchError (List String)
  | [] => .ok []
  | p :: rest =>
    match inotifyFinalizeItem missing stat_inode p with
    | .error e => .error e
    | .ok _ => (inotifyFinalize missing stat_inode rest).map (p.1 :: ·)

/-- Python string comparison (code-point lexicographic), as used by
`paths.sort()` and `sorted(...)`. -/
def strLe (a b : String) : Prop := a.data ≤ b.data

instance : DecidableRel strLe :=
  fun a b => inferInstanceAs (Decidable (a.data ≤ b.data))

instance : IsTotal String strLe := ⟨fun a b => le_total a.data b.data⟩

instance : IsTrans String strLe := ⟨fun _ _ _ h h' => le_trans h h'⟩

/-- `watch.get` in inotify mode: drain and aggregate the pending event
batches, post-process, and return `sorted(last_changes)`. -/
def watch_get (fds_open : List (Nat × String)) (missing : String → Bool)
    (stat_inode : String → Option Nat) (limit : Option Nat)
    (batches : List (List InotifyEvent)) : Except WatchError (List String) :=
  match inotifyFinalize missing stat_inode (inotifyRead fds_open limit batches []) with
  | .error e => .error e
  | .ok paths => .ok (List.insertionSort strLe paths)

/-! ## httpd.py: `get_query` / `merge_query` -/

/-- Character inequality as a scanner predicate. -/
def charNe (a b : Char) : Bool := if a = b then false else true

/-- Split a character list on a separator (Python `str.split(sep)`). -/
def splitOnChar (sep : Char) : List Char → List (List Char)
  | [] => [[]]
  | c :: rest =>
    match splitOnChar sep rest with
    | [] => [[c]]
    | h :: t => if c = sep then [] :: h :: t else (c :: h) :: t

/-- Hexadecimal digit value of a character, if any. -/
def hexVal (c : Char) : Option Nat :=
  if 48 ≤ c.toNat ∧ c.toNat ≤ 57 then some (c.toNat - 48)
  else if 65 ≤ c.toNat ∧ c.toNat ≤ 70 then some (c.toNat - 55)
  else if 97 ≤ c.toNat ∧ c.toNat ≤ 102 then some (c.toNat - 87)
  else none

/-- `urllib` `unquote_plus` on the byte level: `+` becomes space and
`%XX` pairs decode to the character of that byte (multi-byte UTF-8
sequences decode byte-wise here).  Every step consumes at least one input
character, so a fuel of the input length suffices. -/
def unquotePlusGo : Nat → List Char → List Char
  | 0, rest => rest
  | _, [] => []
  | fuel + 1, c :: rest =>
    if c = '+' then ' ' :: unquotePlusGo fuel rest
    else if c = '%' then
      match rest with
      | h1 :: h2 :: rest' =>
        match hexVal h1, hexVal h2 with
        | some a, some b => Char.ofNat (16 * a + b) :: unquotePlusGo fuel rest'
        | _, _ => c :: unquotePlusGo fuel rest
      | _ => c :: unquotePlusGo fuel rest
    else c :: unquotePlusGo fuel rest

/-- `unquote_plus` on strings. -/
def unquote_plus (s : String) : String := ⟨unquotePlusGo s.data.length s.data⟩

/-- The query component `urlparse(path).query`: strip a `#fragment`, then
take what follows the first `?`. -/
def queryOf (path : String) : String :=
  let noFrag := path.data.takeWhile (charNe '#')
  match noFrag.dropWhile (charNe '?') with
  | [] => ""
  | _ :: q => ⟨q⟩

/-- One `name=value` field of `parse_qsl` (blank values and fields without
`=` are dropped; `keep_blank_values` is left at its default). -/
def parseField (f : List Char) : Option (String × String) :=
  let name := f.takeWhile (charNe '=')
  match f.dropWhile (charNe '=') with
  | [] => none
  | _ :: value =>
    if value = [] then none
    else some (unquote_plus ⟨name⟩, unquote_plus ⟨value⟩)

/-- Accumulate one parsed field into the `parse_qs` dict: append the value
to an existing name's list, or insert a fresh singleton. -/
def parse_qs_step (d : List (String × List String)) (f : List Char) :
    List (String × List String) :=
  match parseField f with
  | none => d
  | some (n, v) =>
    match dictGet d n with
    | some vs => dictSet d n (vs ++ [v])
    | none => d ++ [(n, [v])]

/-- `urllib` `parse_qs`: group the parsed fields into a dict of value
lists, appending repeated names. -/
def parse_qs (query : String) : List (String × List String) :=
  (splitOnChar '&' query.data).foldl parse_qs_step []

/-- `httpd.get_query`: the parsed query dict of a request path. -/
def get_query (path : String) : List (String × List String) :=
  if queryOf path = "" then [] else parse_qs (queryOf path)

/-- Python `d.copy()`: a fresh dict with the same bindings. -/
def dictCopy {α β : Type} (d : List (α × β)) : List (α × β) := d

/-- Python `d.update(q)`: fold the bindings of `q` into `d`. -/
def dictUpdate {α β : Type} [DecidableEq α] (d q : List (α × β)) :
    List (α × β) :=
  q.foldl (fun acc kv => dictSet acc kv.1 kv.2) d

/-- `httpd.merge_query`: copy the POST map and update the copy with the
URL query (`p = postmap.copy(); p.update(get_query(path))`). -/
def merge_query (path : String) (postmap : List (String × List String)) :
    List (String × List String) :=
  dictUpdate (dictCopy postmap) (get_query path)

/-- `merge_query` together with the post-call value of the `postmap`
argument: the source updates a copy, so the caller's dict is unchanged. -/
def merge_query_call (path : String) (postmap : List (String × List String)) :
    List (String × List String) × List (String × List String) :=
  (merge_query path postmap, postmap)

/-! ## manage.py: the `/manage/count` arm of `http.control`

A task is represented by the `count` entries of its pending and running
configs (`none` embeds both a missing config and a config without the
key).  The legion maps task names to tasks. -/

/-- The per-task data the count handler reads and writes. -/
structure CountTaskRec where
  pending_count : Option Int := none
  running_count : Option Int := none
deriving DecidableEq

/-- A digit character. -/
def isDigitChar (c : Char) : Bool := 48 ≤ c.toNat && c.toNat ≤ 57

/-- Natural number denoted by a digit list. -/
def natFromDigits (ds : List Char) : Nat :=
  ds.foldl (fun a c => a * 10 + (c.toNat - 48)) 0

/-- Python `int(str)`: an optional sign followed by digits (surrounding
whitespace and digit-group underscores are not modeled; the handler's
inputs here use neither). -/
def pyint (s : String) : Option Int :=
  match s.data with
  | [] => none
  | c :: ds =>
    if c = '-' then
      if ds ≠ [] ∧ ds.all isDigitChar then some (-(natFromDigits ds : Int)) else none
    else if c = '+' then
      if ds ≠ [] ∧ ds.all isDigitChar then some (natFromDigits ds : Int) else none
    else if (c :: ds).all isDigitChar then some (natFromDigits (c :: ds) : Int)
    else none

/-- Exceptions the handler can raise out of its update loop. -/
inductive PyExn where
  | keyError (k : String)
  | attributeError
  | indexError
deriving DecidableEq

/-- The handler's normal result: HTTP status, response text, and the
pending-count updates applied. -/
structure CountResult where
  status : Nat
  text : String
  updates : List (String × Int)
deriving DecidableEq

/-- The first scan of the count handler (`for taskname in postmap`),
accumulating `results`, `counts`, `change_detected` and `error_detected`.
`error_detected` starts out `True` and is only ever written in the
`no pending config` / `no running config` arms (`True`) and the
`no change` / `ok` arms (`False`); the `bad count`, `not found` and
`non-positive` arms leave it untouched. -/
def count_scan (legion : List (String × CountTaskRec)) :
    List (String × List String) → List (String × String) →
    List (String × Int) → Bool → Bool →
    Except PyExn (List (String × String) × List (String × Int) × Bool × Bool)
  | [], results, counts, change, error => .ok (results, counts, change, error)
  | (taskname, vals) :: rest, results, counts, change, error =>
    match vals.head? with
    | none => .error .indexError
    | some raw =>
      match pyint raw with
      | none =>
        count_scan legion rest
          (dictSet results taskname ("bad count \"" ++ raw ++ "\""))
          counts change error
      | some count =>
        match dictGet legion taskname with
        | none =>
          count_scan legion rest (dictSet results taskname "not found")
            counts change error
        | some task =>
          if count ≤ 0 then
            count_scan legion rest
              (dictSet results taskname
                ("non-positive count '" ++ toString count ++ "'"))
              counts change error
          else
            match task.pending_count with
            | none =>
              count_scan legion rest
                (dictSet results taskname "no pending config") counts change true
            | some _ =>
              match task.running_count with
              | none =>
                count_scan legion rest
                  (dictSet results taskname "no running config") counts change true
              | some rc =>
                if rc = count then
                  count_scan legion rest
                    (dictSet results taskname "no change") counts change false
                else
                  count_scan legion rest (dictSet results taskname "ok")
                    (dictSet counts taskname count) true false

/-- The response text: `"%s\t%s\n"` per task name in `sorted(results)`
order. -/
def count_text (results : List (String × String)) : String :=
  (List.insertionSort strLe (results.map (·.1))).foldl
    (fun acc k => acc ++ k ++ "\t" ++ (dictGet results k).getD "" ++ "\n") ""

/-- The update loop run on the 202 path:
`task_get(taskname)._config_pending['count'] = counts[taskname]` for every
name in the postmap.  The right-hand side `counts[taskname]` is evaluated
first (`KeyError` for a name the scan left out of `counts`), then the
attribute access on `task_get`'s result (`AttributeError` when it returned
`None`).  An exception carries the updates applied before it. -/
def count_apply (legion : List (String × CountTaskRec))
    (counts : List (String × Int)) :
    List (String × List String) → List (String × Int) →
    Except (PyExn × List (String × Int)) (List (String × Int))
  | [], applied => .ok applied
  | (taskname, _) :: rest, applied =>
    match dictGet counts taskname with
    | none => .error (.keyError taskname, applied)
    | some c =>
      match dictGet legion taskname with
      | none => .error (.attributeError, applied)
      | some _ => count_apply legion counts rest (applied ++ [(taskname, c)])

/-- The `/manage/count` arm of `manage.http.control`, after
`merge_query`: 404 with no updates when `error_detected` survived the scan,
otherwise 202 with the update loop's effects on a detected change, or 200
with no updates. -/
def manage_count (legion : List (String × CountTaskRec))
    (postmap : List (String × List String)) :
    Except (PyExn × List (String × Int)) CountResult :=
  match count_scan legion postmap [] [] false true with
  | .error e => .error (e, [])
  | .ok (results, counts, change, error) =>
    let text := count_text results
    if error then .ok ⟨404, text, []⟩
    else if change then
      match count_apply legion counts postmap [] with
      | .error e => .error e
      | .ok applied => .ok ⟨202, text, applied⟩
    else .ok ⟨200, text, []⟩

/-! ## Helper lemmas -/

theorem dictGet_eq_none_iff {α β : Type} [DecidableEq α]
    (d : List (α × β)) (k : α) :
    dictGet d k = none ↔ k ∉ d.map (·.1) := by
  induction d with
  | nil => simp [dictGet]
  | cons p rest ih =>
    obtain ⟨a, b⟩ := p
    simp only [dictGet, List.map_cons, List.mem_cons]
    by_cases hak : a = k
    · subst hak
      simp
    · rw [if_neg hak, ih]
      constructor
      · intro h hor
        rcases hor with h1 | h2
        · exact hak h1.symm
        · exact h h2
      · exact fun h hm => h (Or.inr hm)

theorem dictGet_mem_keys {α β : Type} [DecidableEq α]
    {d : List (α × β)} {k : α} {v : β} (h : dictGet d k = some v) :
    k ∈ d.map (·.1) := by
  by_contra hk
  rw [← dictGet_eq_none_iff] at hk
  rw [h] at hk
  cases hk

theorem dictGet_dictSet_self {α β : Type} [DecidableEq α]
    (d : List (α × β)) (k : α) (v : β) :
    dictGet (dictSet d k v) k = some v := by
  induction d with
  | nil => simp [dictSet, dictGet]
  | cons p rest ih =>
    by_cases hpk : p.1 = k <;> simp [dictSet, hpk, dictGet, ih]

theorem dictGet_dictSet_other {α β : Type} [DecidableEq α]
    (d : List (α × β)) (k k' : α) (v : β) (hne : k' ≠ k) :
    dictGet (dictSet d k v) k' = dictGet d k' := by
  induction d with
  | nil =>
    simp only [dictSet, dictGet]
    rw [if_neg (fun h => hne h.symm)]
  | cons p rest ih =>
    by_cases hpk : p.1 = k
    · simp only [dictSet, if_pos hpk, dictGet]
      have hp' : ¬p.1 = k' := by rw [hpk]; exact fun h => hne h.symm
      rw [if_neg (fun h => hne h.symm), if_neg hp']
    · simp only [dictSet, if_neg hpk, dictGet, ih]

theorem dictSet_keys {α β : Type} [DecidableEq α]
    (d : List (α × β)) (k : α) (v : β) :
    (dictSet d k v).map (·.1) =
      if k ∈ d.map (·.1) then d.map (·.1) else d.map (·.1) ++ [k] := by
  induction d with
  | nil => simp [dictSet]
  | cons p rest ih =>
    by_cases hpk : p.1 = k
    · simp [dictSet, hpk]
    · have : ¬k = p.1 := fun h => hpk h.symm
      by_cases hk : k ∈ rest.map (·.1) <;>
        simp [dictSet, hpk, ih, hk, this]

theorem dictGet_dictUpdate {α β : Type} [DecidableEq α]
    (q d : List (α × β)) (k : α) (hq : (q.map (·.1)).Nodup) :
    dictGet (dictUpdate d q) k =
      match dictGet q k with
      | some v => some v
      | none => dictGet d k := by
  induction q generalizing d with
  | nil => simp [dictUpdate, dictGet]
  | cons p rest ih =>
    obtain ⟨a, b⟩ := p
    simp only [List.map_cons, List.nodup_cons] at hq
    show dictGet (dictUpdate (dictSet d a b) rest) k = _
    rw [ih _ hq.2]
    simp only [dictGet]
    by_cases hak : a = k
    · subst hak
      have hget : dictGet rest a = none := by
        rw [dictGet_eq_none_iff]
        exact hq.1
      simp [hget, dictGet_dictSet_self]
    · have : k ≠ a := fun h => hak h.symm
      cases hget : dictGet rest k <;>
        simp [hak, dictGet_dictSet_other _ _ _ _ this]

theorem get_pids_nil_iff (s : TaskState) :
    get_pids s = [] ↔ ∀ p ∈ s.proc_state, p.pid = none := by
  simp [get_pids, List.filterMap_eq_nil_iff]

/-! ## C3: per-slot restart back-off in `task._start` -/

/-- C3: for a slot already in `proc_state`, a new process is exec'd only
when at least `reexec_delay` (5 seconds) has passed since the slot's
recorded `started` time; and when the wall clock has moved backward
(`now < started`) the attempt resets `started` to `now` and skips the exec
on this manage pass, leaving the slot restartable on a later pass. -/
theorem C3_slot_backoff (proc : ProcessState) (now : Int) (newpid : Nat) :
    ((start_slot proc now newpid).1 = .execd →
      ∀ s, proc.started = some s → reexec_delay ≤ now - s) ∧
    (proc.pid = none → ∀ s, proc.started = some s → now < s →
      (start_slot proc now newpid).1 = .clockBackward ∧
      (start_slot proc now newpid).2.started = some now ∧
      (start_slot proc now newpid).2.pid = none) := by
  constructor
  · intro hex s hst
    unfold start_slot at hex
    cases hpid : proc.pid with
    | some p => simp [hpid] at hex
    | none =>
      simp only [hpid, hst] at hex
      by_cases hneg : now - s < 0
      · simp [hneg] at hex
      · by_cases hdel : now - s < reexec_delay
        · simp [hneg, hdel] at hex
        · omega
  · intro hpid s hst hlt
    have hneg : now - s < 0 := by omega
    unfold start_slot
    simp [hpid, hst, hneg]

/-- Witness for `C3_slot_backoff` at a concrete slot. -/
theorem C3_slot_backoff_witness :
    (reexec_delay ≤ (7 : Int) - 2) ∧
    ((start_slot { pid := none, started := some 9 } 4 77).1 = .clockBackward ∧
      (start_slot { pid := none, started := some 9 } 4 77).2.started = some 4 ∧
      (start_slot { pid := none, started := some 9 } 4 77).2.pid = none) :=
  ⟨(C3_slot_backoff { pid := none, started := some 2 } 7 77).1 (by decide) 2 rfl,
   (C3_slot_backoff { pid := none, started := some 9 } 4 77).2 rfl 9 rfl (by decide)⟩

/-! ## C6: the `IN_ATTRIB` simfs workaround in `watch.get` -/

/-- C6: the `IN_ATTRIB` branch can never report "inode unchanged": whatever
`os.stat` returns, `file_move_del` comes out true, because the recorded
inode is read through the never-assigned attribute `xxx` (an
`AttributeError` that the `except` arm turns into a removal).  In
particular a watched path whose recorded inode (42 here, stored by
`_add_file` into `_inx_inode`) equals the freshly stat'ed inode is still
treated as moved/deleted. -/
theorem C6_attrib_always_disappears :
    (∀ (stat_inode : Option Nat) (path : String),
      attribMoveDel stat_inode path = true) ∧
    dictGet (inx_record [] "/watched/file" 42) "/watched/file" = some 42 ∧
    attribMoveDel (some 42) "/watched/file" = true := by
  refine ⟨fun stat_inode path => ?_, by decide, by decide⟩
  cases stat_inode <;> rfl

/-! ## C5: the `/manage/count` handler -/

/-- C5: the count handler does not satisfy "404 and no change on any
invalid entry".  With task `t1` configured (pending and running `count` 2):
a request naming unknown task `nope` next to a no-op entry returns 200; a
request naming `nope` next to a count change applies the change to `t1`
and then raises `KeyError` out of the handler (a 500, not a 404); and even
an all-valid request mixing a change with a no-op raises `KeyError`
before applying anything. -/
theorem C5_count_handler_divergence :
    manage_count [("t1", ⟨some 2, some 2⟩)] [("nope", ["3"]), ("t1", ["2"])] =
      .ok ⟨200, "nope\tnot found\nt1\tno change\n", []⟩ ∧
    manage_count [("t1", ⟨some 2, some 2⟩)] [("t1", ["5"]), ("nope", ["3"])] =
      .error (.keyError "nope", [("t1", 5)]) ∧
    manage_count [("t1", ⟨some 2, some 2⟩), ("t2", ⟨some 1, some 1⟩)]
      [("t1", ["2"]), ("t2", ["7"])] = .error (.keyError "t1", []) := by
  refine ⟨by decide, by decide, by decide⟩

/-! ## C8: `statusfmt` -/

theorem hexDigits_length_le : ∀ (k n : Nat), n < 16 ^ k → (hexDigits n).length ≤ k := by
  intro k
  induction k with
  | zero =>
    intro n h
    have : n = 0 := by omega
    subst this
    simp [hexDigits]
  | succ k ih =>
    intro n h
    match n with
    | 0 => simp [hexDigits]
    | m + 1 =>
      have hdiv : (m + 1) / 16 < 16 ^ k := by
        apply Nat.div_lt_of_lt_mul
        have := pow_succ 16 k
        omega
      calc (hexDigits (m + 1)).length
          = (hexDigits ((m + 1) / 16)).length + 1 := by
            rw [hexDigits]; simp
        _ ≤ k + 1 := by have := ih _ hdiv; omega

theorem hex04_length_eq_four (n : Nat) (h : n < 65536) :
    (hex04 n).length = 4 := by
  have hle : (hexDigits n).length ≤ 4 := by
    apply hexDigits_length_le 4 n
    norm_num
    omega
  simp only [hex04, String.length]
  simp [List.length_append, List.length_replicate]
  omega

/-- C8 counterexample: `statusfmt 0x0180` renders a normal exit (code 1)
yet carries the `' (core dumped)'` suffix (the core bit is tested outside
the signal branch), refuting "the core-dump suffix is attached only in the
signal case". -/
theorem C8_counterexample :
    statusfmt 384 = "exited 1 (core dumped)" ∧ wifsignaled 384 = false := by
  exact ⟨by decide, by decide⟩

/-- C8 (amended): `statusfmt` renders status 0 as `exited ok`, a signal
death as `died on <SIGNAME>`, a non-zero normal exit as `exited <n>`, and
anything else as `unknown exit code 0x<hex>` with the status zero-padded to
at least four hex digits (exactly four for any 16-bit status); the
`' (core dumped)'` suffix is appended in *every* branch whenever the status
carries the core-dump bit, not only in the signal case (status 0 never
carries it). -/
theorem C8_statusfmt_amended (status : Nat) :
    (status = 0 → statusfmt status = "exited ok") ∧
    (wifsignaled status = true →
      statusfmt status = "died on " ++ signame (wtermsig status) ++
        (if wcoredump status then " (core dumped)" else "")) ∧
    (status ≠ 0 → wifexited status = true → 0 < wexitstatus status →
      statusfmt status = "exited " ++ toString (wexitstatus status) ++
        (if wcoredump status then " (core dumped)" else "")) ∧
    (status ≠ 0 → wifsignaled status = false →
      (wifexited status = false ∨ wexitstatus status = 0) →
      statusfmt status = "unknown exit code 0x" ++ hex04 status ++
        (if wcoredump status then " (core dumped)" else "")) ∧
    (status < 65536 → (hex04 status).length = 4) := by
  refine ⟨?_, ?_, ?_, ?_, fun h => hex04_length_eq_four status h⟩
  · intro h
    subst h
    decide
  · intro hsig
    have hne : ¬status = 0 := by
      intro h
      subst h
      simp [wifsignaled] at hsig
    simp only [statusfmt, if_neg hne, hsig, if_pos]
    split <;> simp
  · intro hne hex hpos
    have hsig : wifsignaled status = false := by
      simp only [wifexited, decide_eq_true_eq] at hex
      simp [wifsignaled, hex]
    simp only [statusfmt, if_neg hne, hsig, Bool.false_eq_true, if_neg,
      hex, decide_eq_true hpos, Bool.and_self, if_pos]
    split <;> simp
  · intro hne hsig hrest
    have hcond : (wifexited status && decide (wexitstatus status > 0)) = false := by
      rcases hrest with h | h
      · simp [h]
      · simp [h]
    simp only [statusfmt, if_neg hne, hsig, Bool.false_eq_true, if_neg, hcond]
    split <;> simp

/-- Witness for `C8_statusfmt_amended` at concrete statuses. -/
theorem C8_statusfmt_amended_witness :
    statusfmt 0 = "exited ok" ∧
    statusfmt 130 = "died on " ++ signame (wtermsig 130) ++
      (if wcoredump 130 then " (core dumped)" else "") ∧
    statusfmt 512 = "exited " ++ toString (wexitstatus 512) ++
      (if wcoredump 512 then " (core dumped)" else "") ∧
    statusfmt 128 = "unknown exit code 0x" ++ hex04 128 ++
      (if wcoredump 128 then " (core dumped)" else "") ∧
    (hex04 384).length = 4 :=
  ⟨(C8_statusfmt_amended 0).1 rfl,
   (C8_statusfmt_amended 130).2.1 (by decide),
   (C8_statusfmt_amended 512).2.2.1 (by decide) (by decide) (by decide),
   (C8_statusfmt_amended 128).2.2.2.1 (by decide) (by decide) (Or.inr (by decide)),
   (C8_statusfmt_amended 384).2.2.2.2 (by decide)⟩

/-! ## C7: `_fmt_context` -/

/-- C7 counterexample: a whole argument that is a single `{name}`
placeholder whose context value is `None` comes back as the value `None`
itself (the loop breaks with `res = None` and appends it), not as the
unchanged argument string. -/
theorem C7_counterexample :
    fmt_context [("x", none)] "{x}" = none ∧
    fmt_context [("x", none)] "{x}" ≠ some "{x}" := by
  exact ⟨by decide, by decide⟩

theorem fmt_context_loop_iter (ctx : Ctx) :
    ∀ (fuel : Nat) (arg : String),
      fmt_context_loop ctx fuel arg = none ∨
      ∃ k, k ≤ fuel ∧ fmt_context_loop ctx fuel arg = some (fmtIter ctx k arg) := by
  intro fuel
  induction fuel with
  | zero =>
    intro arg
    exact Or.inr ⟨0, le_refl 0, rfl⟩
  | succ fuel ih =>
    intro arg
    rw [fmt_context_loop]
    cases hvar : fmt_context_isvar arg with
    | some name =>
      by_cases hnone : dictGet ctx name = some none
      · simp [hnone]
      · simp only [if_neg hnone]
        cases hfmt : pyformat ctx arg with
        | error e => exact Or.inr ⟨0, Nat.zero_le _, rfl⟩
        | ok res =>
          by_cases heq : res = arg
          · simp only [if_pos heq]
            exact Or.inr ⟨0, Nat.zero_le _, rfl⟩
          · simp only [if_neg heq]
            rcases ih res with h | ⟨k, hk, h⟩
            · exact Or.inl h
            · refine Or.inr ⟨k + 1, Nat.succ_le_succ hk, ?_⟩
              rw [h]
              have : fmtIter ctx (k + 1) arg = fmtIter ctx k res := by
                rw [fmtIter, hfmt]
              rw [this]
    | none =>
      cases hfmt : pyformat ctx arg with
      | error e => exact Or.inr ⟨0, Nat.zero_le _, rfl⟩
      | ok res =>
        by_cases heq : res = arg
        · simp only [if_pos heq]
          exact Or.inr ⟨0, Nat.zero_le _, rfl⟩
        · simp only [if_neg heq]
          rcases ih res with h | ⟨k, hk, h⟩
          · exact Or.inl h
          · refine Or.inr ⟨k + 1, Nat.succ_le_succ hk, ?_⟩
            rw [h]
            have : fmtIter ctx (k + 1) arg = fmtIter ctx k res := by
              rw [fmtIter, hfmt]
            rw [this]

/-- C7 (amended): `_fmt_context` iterates the formatting pass at most the
fixed 10 times, stopping as soon as a pass produces no change (the result
is then the value of at most 10 successive formatting passes, an erroring
pass keeping the previous value); a first-pass formatting error returns
the argument unchanged; and a whole argument that is exactly one `{name}`
placeholder with a `None` context value yields the `None` value itself —
preserved as null rather than stringified to `'None'`, but *not* the
original placeholder text. -/
theorem C7_fmt_context_amended (ctx : Ctx) (arg : String) :
    (∀ name, fmt_context_isvar arg = some name →
      dictGet ctx name = some none → fmt_context ctx arg = none) ∧
    ((∀ name, fmt_context_isvar arg = some name →
        dictGet ctx name ≠ some none) →
      pyformat ctx arg = .error () → fmt_context ctx arg = some arg) ∧
    ((∀ name, fmt_context_isvar arg = some name →
        dictGet ctx name ≠ some none) →
      pyformat ctx arg = .ok arg → fmt_context ctx arg = some arg) ∧
    (fmt_context ctx arg = none ∨
      ∃ k, k ≤ 10 ∧ fmt_context ctx arg = some (fmtIter ctx k arg)) := by
  refine ⟨?_, ?_, ?_, fmt_context_loop_iter ctx 10 arg⟩
  · intro name hvar hnone
    rw [fmt_context, fmt_context_loop, hvar]
    simp [hnone]
  · intro hguard herr
    rw [fmt_context, fmt_context_loop]
    cases hvar : fmt_context_isvar arg with
    | some name => simp [hguard name hvar, herr]
    | none => simp [herr]
  · intro hguard hok
    rw [fmt_context, fmt_context_loop]
    cases hvar : fmt_context_isvar arg with
    | some name => simp [hguard name hvar, hok]
    | none => simp [hok]

/-- Witness for `C7_fmt_context_amended` at concrete arguments. -/
theorem C7_fmt_context_amended_witness :
    fmt_context [("x", none)] "{x}" = none ∧
    fmt_context [("y", some "1")] "{z}" = some "{z}" ∧
    fmt_context [("y", some "1")] "plain" = some "plain" :=
  ⟨(C7_fmt_context_amended [("x", none)] "{x}").1 "x" (by decide) (by decide),
   (C7_fmt_context_amended [("y", some "1")] "{z}").2.1
     (by decide) (by decide),
   (C7_fmt_context_amended [("y", some "1")] "plain").2.2.1
     (by decide) (by decide)⟩

/-! ## C10: `signame` / `signum` -/

/-- The input forms `signum.namemap` is built from: for some `sigmap`
entry, the signal number itself, its decimal string, the `SIG` name in
upper or lower case, or the prefix-stripped name in upper or lower case. -/
def sigKeyRecognized (key : SigKey) : Prop :=
  ∃ p ∈ sigmap, key = .int p.1 ∨ key = .str (toString p.1) ∨
    key = .str (pyUpper p.2) ∨ key = .str (pyLower p.2) ∨
    key = .str (pyUpper (sigAbbrevOf p.2)) ∨ key = .str (pyLower (sigAbbrevOf p.2))

instance (key : SigKey) : Decidable (sigKeyRecognized key) := by
  unfold sigKeyRecognized
  infer_instance

set_option maxHeartbeats 4000000 in
theorem signumNamemap_keys_recognized :
    ∀ k ∈ signumNamemap.map (·.1), sigKeyRecognized k := by decide

set_option maxHeartbeats 4000000 in
/-- C10: for every signal number with a `SIG*` name,
`signum(signame(n)) = n`, and `signum` maps the number, its decimal
string, the full name in either case and the prefix-stripped name in
either case to `n`; every input that is none of those forms maps to
`None`. -/
theorem C10_signum_roundtrip :
    (∀ p ∈ sigmap,
      signum (.str (signame p.1)) = some p.1 ∧
      signum (.int p.1) = some p.1 ∧
      signum (.str (toString p.1)) = some p.1 ∧
      signum (.str (pyUpper p.2)) = some p.1 ∧
      signum (.str (pyLower p.2)) = some p.1 ∧
      signum (.str (pyUpper (sigAbbrevOf p.2))) = some p.1 ∧
      signum (.str (pyLower (sigAbbrevOf p.2))) = some p.1) ∧
    (∀ key, ¬sigKeyRecognized key → signum key = none) := by
  constructor
  · decide
  · intro key hk
    rw [signum, dictGet_eq_none_iff]
    intro hmem
    exact hk (signumNamemap_keys_recognized key hmem)

/-- Witness for `C10_signum_roundtrip` at `SIGHUP` and an unrecognized
string. -/
theorem C10_signum_roundtrip_witness :
    signum (.str (signame 1)) = some 1 ∧ signum (.str "junk") = none :=
  ⟨(C10_signum_roundtrip.1 (1, "SIGHUP") (by decide)).1,
   C10_signum_roundtrip.2 (.str "junk") (by decide)⟩

/-! ## C2: `stopped ⇒ all slots have pid == null` -/

instance (s : TaskState) : Decidable (stopped_inv s) := by
  unfold stopped_inv
  infer_instance

/-- The running config of the C2 counterexample task (`wait` control). -/
def c2RunningConf : TaskConf :=
  { control := some "wait", count := some 1, commands := [("start", ["srv"])] }

/-- The same config with only the control changed to `event`, as a
`/manage/control` request leaves it. -/
def c2PendingConf : TaskConf := { c2RunningConf with control := some "event" }

/-- A task running one process whose control has just become `event`. -/
def c2State : TaskState :=
  { proc_state := [{ pid := some 1234, started := some 50 }],
    control := some "event" }

/-- C2 counterexample: changing a running task's control to `event` is not
a command change (so `apply()` does not stop it), and the next `_start`
marks the task `stopped` while its slot still holds a live pid — a
reachable state violating `stopped ⇒ all pids null`. -/
theorem C2_counterexample :
    command_change c2RunningConf c2PendingConf = false ∧
    stopped_inv c2State ∧
    (start_prologue c2State 100).1.stopped = some 100 ∧
    (start_prologue c2State 100).1.proc_state = c2State.proc_state ∧
    ¬stopped_inv (start_prologue c2State 100).1 := by
  refine ⟨by decide, by decide, by decide, by decide, by decide⟩

theorem clearLastMatch_eq_none (procs : List ProcessState) (pid code : Nat)
    (now : Int) (h : ∀ p ∈ procs, p.pid = none) :
    clearLastMatch procs pid code now = none := by
  induction procs with
  | nil => rfl
  | cons p rest ih =>
    have hp := h p (List.mem_cons_self p rest)
    have hrest := ih (fun q hq => h q (List.mem_cons_of_mem p hq))
    rw [clearLastMatch, hrest]
    simp [hp]

/-- C2 (amended): `stop()` sets `stopped` only after observing zero live
pids and preserves the invariant; `proc_exit` sets `stopped` only when the
exiting pid was the last live pid (all slots are clear afterwards) and
preserves the invariant; and the `_start` prologue preserves the invariant
except through the `event`-control marking — it does so whenever the task's
control is not `event` or no pid is live, the loophole `C2_counterexample`
exhibits. -/
theorem C2_stopped_inv_amended :
    (∀ s now le re hr hs, stopped_inv s →
      stopped_inv (task_stop s now le re hr hs).1) ∧
    (∀ s now le re hr hs, s.stopped = none →
      (task_stop s now le re hr hs).1.stopped ≠ none → get_pids s = []) ∧
    (∀ s pid code now, stopped_inv s →
      stopped_inv (task_proc_exit s pid code now).1) ∧
    (∀ s pid code now, s.stopped = none →
      (task_proc_exit s pid code now).1.stopped ≠ none →
      get_pids (task_proc_exit s pid code now).1 = []) ∧
    (∀ s now, stopped_inv s → (s.control ≠ some "event" ∨ get_pids s = []) →
      stopped_inv (start_prologue s now).1) := by
  refine ⟨?_, ?_, ?_, ?_, ?_⟩
  · intro s now le re hr hs hinv
    unfold task_stop
    dsimp only
    split_ifs with h1 h2 h3 h4 h5 h6 <;>
      first
        | exact hinv
        | exact Or.inr fun p hp =>
            (get_pids_nil_iff s).mp (List.length_eq_zero.mp h2.2) p hp
  · intro s now le re hr hs hnone hset
    unfold task_stop at hset
    dsimp only at hset
    split_ifs at hset with h1 h2 h3 h4 h5 h6 <;>
      first
        | exact absurd hnone hset
        | exact List.length_eq_zero.mp h2.2
  · intro s pid code now hinv
    unfold task_proc_exit
    cases hclear : clearLastMatch s.proc_state pid code now with
    | none => exact hinv
    | some procs =>
      dsimp only
      split_ifs with hext
      · refine Or.inr ?_
        intro p hp
        have hnil : List.filterMap (fun p => p.pid) procs = [] :=
          List.length_eq_zero.mp (by simpa [get_pids] using hext)
        exact (List.filterMap_eq_nil_iff.mp hnil) p hp
      · rcases hinv with h | h
        · exact Or.inl h
        · exfalso
          rw [clearLastMatch_eq_none s.proc_state pid code now h] at hclear
          cases hclear
  · intro s pid code now hnone hset
    unfold task_proc_exit at hset ⊢
    cases hclear : clearLastMatch s.proc_state pid code now with
    | none =>
      rw [hclear] at hset
      exact absurd hnone hset
    | some procs =>
      rw [hclear] at hset
      dsimp only at hset ⊢
      split_ifs at hset ⊢ with hext
      · exact List.length_eq_zero.mp hext
      · exact absurd hnone hset
  · intro s now hinv hside
    unfold start_prologue
    by_cases h1 : s.stopping.isSome
    · rw [if_pos h1]
      exact hinv
    · rw [if_neg h1]
      dsimp only
      by_cases h2 : s.control = some "event" ∧ s.stopped = none
      · have hpids : get_pids s = [] := by
          rcases hside with hc | hc
          · exact absurd h2.1 hc
          · exact hc
        rw [if_pos h2]
        dsimp only
        split_ifs with hx h3 h4
        · exact Or.inr fun p hp => (get_pids_nil_iff s).mp hpids p hp
        · exact Or.inr fun p hp => (get_pids_nil_iff s).mp hpids p hp
        · exact Or.inl rfl
        · exact absurd rfl hx
      · rw [if_neg h2]
        by_cases h3 : s.stopped.isSome
        · rw [if_pos h3]
          split_ifs with h4 h5
          · exact hinv
          · exact hinv
          · exact Or.inl rfl
        · rw [if_neg h3]
          exact hinv

/-- A stopping task whose only slot is already clear. -/
def c2StopState : TaskState := { proc_state := [{ pid := none }], stopping := some 1 }

/-- A task with a single live pid. -/
def c2ExitState : TaskState := { proc_state := [{ pid := some 5 }] }

/-- A `wait`-control task with a live pid. -/
def c2WaitState : TaskState :=
  { proc_state := [{ pid := some 5 }], control := some "wait" }

/-- Witness for `C2_stopped_inv_amended` at concrete states. -/
theorem C2_stopped_inv_amended_witness :
    stopped_inv (task_stop c2StopState 9 false false false false).1 ∧
    get_pids c2StopState = [] ∧
    stopped_inv (task_proc_exit c2ExitState 5 0 30).1 ∧
    get_pids (task_proc_exit c2ExitState 5 0 30).1 = [] ∧
    stopped_inv (start_prologue c2WaitState 7).1 :=
  ⟨C2_stopped_inv_amended.1 c2StopState 9 false false false false (by decide),
   C2_stopped_inv_amended.2.1 c2StopState 9 false false false false rfl (by decide),
   C2_stopped_inv_amended.2.2.1 c2ExitState 5 0 30 (by decide),
   C2_stopped_inv_amended.2.2.2.1 c2ExitState 5 0 30 rfl (by decide),
   C2_stopped_inv_amended.2.2.2.2 c2WaitState 7 (by decide) (Or.inl (by decide))⟩

/-! ## C9: `merge_query` -/

theorem parse_qs_step_keys_nodup (d : List (String × List String))
    (f : List Char) (hd : (d.map (·.1)).Nodup) :
    ((parse_qs_step d f).map (·.1)).Nodup := by
  rw [parse_qs_step]
  cases hpf : parseField f with
  | none => exact hd
  | some nv =>
    obtain ⟨n, v⟩ := nv
    dsimp only
    cases hget : dictGet d n with
    | some vs =>
      dsimp only
      rw [dictSet_keys, if_pos (dictGet_mem_keys hget)]
      exact hd
    | none =>
      rw [List.map_append]
      simp only [List.map_cons, List.map_nil]
      rw [List.nodup_append]
      refine ⟨hd, List.nodup_singleton _, ?_⟩
      intro a ha hb
      simp only [List.mem_singleton] at hb
      subst hb
      rw [dictGet_eq_none_iff] at hget
      exact hget ha

theorem parse_qs_foldl_keys_nodup (fields : List (List Char)) :
    ∀ d : List (String × List String), (d.map (·.1)).Nodup →
      ((fields.foldl parse_qs_step d).map (·.1)).Nodup := by
  induction fields with
  | nil => intro d hd; exact hd
  | cons f rest ih =>
    intro d hd
    exact ih (parse_qs_step d f) (parse_qs_step_keys_nodup d f hd)

theorem parse_qs_keys_nodup (q : String) :
    ((parse_qs q).map (·.1)).Nodup :=
  parse_qs_foldl_keys_nodup (splitOnChar '&' q.data) [] (by simp)

theorem get_query_keys_nodup (path : String) :
    ((get_query path).map (·.1)).Nodup := by
  rw [get_query]
  split
  · simp
  · exact parse_qs_keys_nodup _

/-- C9: `merge_query(path, postmap)` contains every key of `postmap` and
every key parsed from the URL query string; for a key present in both, the
query's value list replaces the one from `postmap`; keys only in `postmap`
keep their values; and the `postmap` argument itself is unchanged after
the call (the source copies it before updating). -/
theorem C9_merge_query (path : String) (postmap : List (String × List String)) :
    (∀ k v, dictGet (get_query path) k = some v →
      dictGet (merge_query path postmap) k = some v) ∧
    (∀ k, dictGet (get_query path) k = none →
      dictGet (merge_query path postmap) k = dictGet postmap k) ∧
    (∀ k, (dictGet (merge_query path postmap) k).isSome =
      ((dictGet postmap k).isSome || (dictGet (get_query path) k).isSome)) ∧
    (merge_query_call path postmap).2 = postmap := by
  have hupS : ∀ k v, dictGet (get_query path) k = some v →
      dictGet (merge_query path postmap) k = some v := by
    intro k v h
    unfold merge_query dictCopy
    rw [dictGet_dictUpdate _ _ _ (get_query_keys_nodup path), h]
  have hupN : ∀ k, dictGet (get_query path) k = none →
      dictGet (merge_query path postmap) k = dictGet postmap k := by
    intro k h
    unfold merge_query dictCopy
    rw [dictGet_dictUpdate _ _ _ (get_query_keys_nodup path), h]
  refine ⟨hupS, hupN, ?_, rfl⟩
  intro k
  cases hq : dictGet (get_query path) k with
  | some v =>
    rw [hupS k v hq]
    simp
  | none =>
    rw [hupN k hq]
    simp

/-- Witness for `C9_merge_query` at a concrete path and POST map. -/
theorem C9_merge_query_witness :
    dictGet (merge_query "/p?a=1&b=2" [("b", ["9"]), ("c", ["3"])]) "a" = some ["1"] ∧
    dictGet (merge_query "/p?a=1&b=2" [("b", ["9"]), ("c", ["3"])]) "c" =
      dictGet [("b", ["9"]), ("c", ["3"])] "c" ∧
    (dictGet (merge_query "/p?a=1&b=2" [("b", ["9"]), ("c", ["3"])]) "b").isSome =
      ((dictGet [("b", ["9"]), ("c", ["3"])] "b").isSome ||
        (dictGet (get_query "/p?a=1&b=2") "b").isSome) :=
  ⟨(C9_merge_query "/p?a=1&b=2" [("b", ["9"]), ("c", ["3"])]).1 "a" ["1"] (by decide),
   (C9_merge_query "/p?a=1&b=2" [("b", ["9"]), ("c", ["3"])]).2.1 "c" (by decide),
   (C9_merge_query "/p?a=1&b=2" [("b", ["9"]), ("c", ["3"])]).2.2.1 "b"⟩

/-! ## C4: `watch.get` aggregation -/

theorem dictGet_mem {α β : Type} [DecidableEq α]
    {d : List (α × β)} {k : α} {v : β} (h : dictGet d k = some v) :
    (k, v) ∈ d := by
  induction d with
  | nil => cases h
  | cons p rest ih =>
    obtain ⟨a, b⟩ := p
    rw [dictGet] at h
    by_cases hak : a = k
    · rw [if_pos hak] at h
      cases h
      subst hak
      exact List.mem_cons_self _ _
    · rw [if_neg hak] at h
      exact List.mem_cons_of_mem _ (ih h)

theorem mem_dictSet {α β : Type} [DecidableEq α]
    {d : List (α × β)} {k : α} {v : β} {p : α × β} (h : p ∈ dictSet d k v) :
    p ∈ d ∨ p = (k, v) := by
  induction d with
  | nil =>
    simp only [dictSet, List.mem_singleton] at h
    exact Or.inr h
  | cons q rest ih =>
    rw [dictSet] at h
    split_ifs at h with hq
    · rcases List.mem_cons.mp h with h1 | h1
      · exact Or.inr h1
      · exact Or.inl (List.mem_cons_of_mem _ h1)
    · rcases List.mem_cons.mp h with h1 | h1
      · exact Or.inl (h1 ▸ List.mem_cons_self _ _)
      · rcases ih h1 with h2 | h2
        · exact Or.inl (List.mem_cons_of_mem _ h2)
        · exact Or.inr h2

theorem evaggAdd_facts (fds_open : List (Nat × String)) (evagg : List (String × Nat))
    (ev : InotifyEvent) (hmask : ev.mask = IN_MODIFY)
    (hnd : (evagg.map (·.1)).Nodup) (hval : ∀ p ∈ evagg, p.2 = IN_MODIFY) :
    (((evaggAdd fds_open evagg ev).map (·.1)).Nodup ∧
      (∀ p ∈ evaggAdd fds_open evagg ev, p.2 = IN_MODIFY)) ∧
    (∀ x, x ∈ (evaggAdd fds_open evagg ev).map (·.1) ↔
      x ∈ evagg.map (·.1) ∨ dictGet fds_open ev.wd = some x) := by
  rw [evaggAdd]
  cases hwd : dictGet fds_open ev.wd with
  | none =>
    refine ⟨⟨hnd, hval⟩, fun x => ?_⟩
    simp [hwd]
  | some path =>
    dsimp only
    cases hget : dictGet evagg path with
    | some m =>
      have hmem : (path, m) ∈ evagg := dictGet_mem hget
      have hm2 : m = IN_MODIFY := hval _ hmem
      have hkeys : (dictSet evagg path (m ||| ev.mask)).map (·.1) = evagg.map (·.1) := by
        rw [dictSet_keys, if_pos (dictGet_mem_keys hget)]
      refine ⟨⟨by rw [hkeys]; exact hnd, ?_⟩, fun x => ?_⟩
      · intro p hp
        rcases mem_dictSet hp with h | h
        · exact hval p h
        · rw [h, hm2, hmask]
          show IN_MODIFY ||| IN_MODIFY = IN_MODIFY
          decide
      · rw [hkeys]
        constructor
        · exact Or.inl
        · intro h
          rcases h with h | h
          · exact h
          · obtain rfl : path = x := by injection h
            exact dictGet_mem_keys hget
    | none =>
      have hnot : path ∉ evagg.map (·.1) := (dictGet_eq_none_iff evagg path).mp hget
      refine ⟨⟨?_, ?_⟩, fun x => ?_⟩
      · rw [List.map_append]
        simp only [List.map_cons, List.map_nil]
        rw [List.nodup_append]
        exact ⟨hnd, List.nodup_singleton _, by
          intro a ha hb
          simp only [List.mem_singleton] at hb
          subst hb
          exact hnot ha⟩
      · intro p hp
        rcases List.mem_append.mp hp with h | h
        · exact hval p h
        · simp only [List.mem_singleton] at h
          rw [h, hmask]
      · rw [List.map_append]
        simp only [List.map_cons, List.map_nil, List.mem_append, List.mem_singleton,
          Option.some.injEq]
        constructor
        · intro h
          rcases h with h | h
          · exact Or.inl h
          · exact Or.inr h.symm
        · intro h
          rcases h with h | h
          · exact Or.inl h
          · exact Or.inr h.symm

theorem evagg_foldl_facts (fds_open : List (Nat × String)) :
    ∀ (events : List InotifyEvent), (∀ ev ∈ events, ev.mask = IN_MODIFY) →
    ∀ evagg, (evagg.map (·.1)).Nodup → (∀ p ∈ evagg, p.2 = IN_MODIFY) →
      (((events.foldl (evaggAdd fds_open) evagg).map (·.1)).Nodup ∧
        (∀ p ∈ events.foldl (evaggAdd fds_open) evagg, p.2 = IN_MODIFY)) ∧
      (∀ x, x ∈ (events.foldl (evaggAdd fds_open) evagg).map (·.1) ↔
        x ∈ evagg.map (·.1) ∨ ∃ ev ∈ events, dictGet fds_open ev.wd = some x) := by
  intro events
  induction events with
  | nil =>
    intro _ evagg hnd hval
    exact ⟨⟨hnd, hval⟩, fun x => by simp⟩
  | cons ev rest ih =>
    intro hm evagg hnd hval
    have hev := hm ev (List.mem_cons_self _ _)
    have hrest : ∀ e ∈ rest, e.mask = IN_MODIFY :=
      fun e he => hm e (List.mem_cons_of_mem _ he)
    obtain ⟨⟨hnd', hval'⟩, hmem'⟩ := evaggAdd_facts fds_open evagg ev hev hnd hval
    obtain ⟨h1, h2⟩ := ih hrest (evaggAdd fds_open evagg ev) hnd' hval'
    refine ⟨h1, fun x => ?_⟩
    rw [List.foldl_cons, h2 x, hmem' x]
    constructor
    · intro h
      rcases h with (h | h) | h
      · exact Or.inl h
      · exact Or.inr ⟨ev, List.mem_cons_self _ _, h⟩
      · obtain ⟨e, he, hx⟩ := h
        exact Or.inr ⟨e, List.mem_cons_of_mem _ he, hx⟩
    · intro h
      rcases h with h | ⟨e, he, hx⟩
      · exact Or.inl (Or.inl h)
      · rcases List.mem_cons.mp he with rfl | he'
        · exact Or.inl (Or.inr hx)
        · exact Or.inr ⟨e, he', hx⟩

theorem inotifyRead_no_limit (fds_open : List (Nat × String)) :
    ∀ (batches : List (List InotifyEvent)) (evagg : List (String × Nat)),
      (∀ b ∈ batches, b ≠ []) →
      inotifyRead fds_open none batches evagg =
        batches.flatten.foldl (evaggAdd fds_open) evagg := by
  intro batches
  induction batches with
  | nil => intro evagg _; simp [inotifyRead]
  | cons b rest ih =>
    intro evagg hne
    have hb : b ≠ [] := hne b (List.mem_cons_self _ _)
    rw [inotifyRead, if_neg hb]
    dsimp only
    rw [ih _ (fun x hx => hne x (List.mem_cons_of_mem _ hx))]
    rw [List.flatten_cons, List.foldl_append]

theorem inotifyFinalize_all_modify (missing : String → Bool)
    (stat_inode : String → Option Nat) :
    ∀ (evagg : List (String × Nat)), (∀ p ∈ evagg, p.2 = IN_MODIFY) →
      inotifyFinalize missing stat_inode evagg = .ok (evagg.map (·.1)) := by
  intro evagg
  induction evagg with
  | nil => intro _; rfl
  | cons p rest ih =>
    intro hval
    have hp : p.2 = IN_MODIFY := hval p (List.mem_cons_self _ _)
    have hitem : inotifyFinalizeItem missing stat_inode p = .ok () := by
      unfold inotifyFinalizeItem
      rw [hp]
      rw [if_pos (by decide : IN_MODIFY &&& (IN_DELETE_SELF ||| IN_MOVE_SELF) = 0)]
      rw [if_pos (by decide : IN_MODIFY &&& IN_ATTRIB = 0)]
    rw [inotifyFinalize, hitem,
      ih (fun q hq => hval q (List.mem_cons_of_mem _ hq))]
    rfl

/-- C4: with only modification events pending (`IN_MODIFY`, any number per
path, delivered in any non-empty read batches) and no `limit`, `get`
succeeds and returns each affected watched path exactly once, in a list
sorted ascending by Python string order. -/
theorem C4_watch_get (fds_open : List (Nat × String)) (missing : String → Bool)
    (stat_inode : String → Option Nat) (batches : List (List InotifyEvent))
    (hne : ∀ b ∈ batches, b ≠ [])
    (hm : ∀ b ∈ batches, ∀ ev ∈ b, ev.mask = IN_MODIFY) :
    ∃ paths, watch_get fds_open missing stat_inode none batches = .ok paths ∧
      paths.Sorted strLe ∧ paths.Nodup ∧
      (∀ p, p ∈ paths ↔ ∃ b ∈ batches, ∃ ev ∈ b, dictGet fds_open ev.wd = some p) ∧
      (∀ p, (∃ b ∈ batches, ∃ ev ∈ b, dictGet fds_open ev.wd = some p) →
        paths.count p = 1) := by
  have hjoin : ∀ ev ∈ batches.flatten, ev.mask = IN_MODIFY := by
    intro ev hev
    obtain ⟨b, hb, hevb⟩ := List.mem_flatten.mp hev
    exact hm b hb ev hevb
  obtain ⟨⟨hnd, hval⟩, hmem⟩ :=
    evagg_foldl_facts fds_open batches.flatten hjoin [] (by simp) (by simp)
  have hread := inotifyRead_no_limit fds_open batches [] hne
  have hfin := inotifyFinalize_all_modify missing stat_inode
    (batches.flatten.foldl (evaggAdd fds_open) []) hval
  refine ⟨List.insertionSort strLe
    ((batches.flatten.foldl (evaggAdd fds_open) []).map (·.1)), ?_, ?_, ?_, ?_, ?_⟩
  · rw [watch_get, hread, hfin]
  · exact List.sorted_insertionSort strLe _
  · exact ((List.perm_insertionSort strLe _).nodup_iff).mpr hnd
  · intro p
    rw [(List.perm_insertionSort strLe _).mem_iff, hmem p]
    simp only [List.not_mem_nil, List.map_nil, false_or]
    constructor
    · intro ⟨ev, hev, hp⟩
      obtain ⟨b, hb, hevb⟩ := List.mem_flatten.mp hev
      exact ⟨b, hb, ev, hevb, hp⟩
    · intro ⟨b, hb, ev, hevb, hp⟩
      exact ⟨ev, List.mem_flatten.mpr ⟨b, hb, hevb⟩, hp⟩
  · intro p hp
    have hmemp : p ∈ List.insertionSort strLe
        ((batches.flatten.foldl (evaggAdd fds_open) []).map (·.1)) := by
      rw [(List.perm_insertionSort strLe _).mem_iff, hmem p]
      simp only [List.not_mem_nil, List.map_nil, false_or]
      obtain ⟨b, hb, ev, hevb, hpth⟩ := hp
      exact ⟨ev, List.mem_flatten.mpr ⟨b, hb, hevb⟩, hpth⟩
    have hndp : (List.insertionSort strLe
        ((batches.flatten.foldl (evaggAdd fds_open) []).map (·.1))).Nodup :=
      ((List.perm_insertionSort strLe _).nodup_iff).mpr hnd
    have h1 : 0 < (List.insertionSort strLe
        ((batches.flatten.foldl (evaggAdd fds_open) []).map (·.1))).count p :=
      List.count_pos_iff.mpr hmemp
    have h2 := List.nodup_iff_count_le_one.mp hndp p
    omega

/-- Witness for `C4_watch_get`: two watched paths, three `IN_MODIFY` events
for one and two for the other, across two read batches. -/
theorem C4_watch_get_witness :
    ∃ paths, watch_get [(1, "/b"), (2, "/a")] (fun _ => false) (fun _ => none)
        none [[⟨1, 2⟩, ⟨2, 2⟩, ⟨1, 2⟩], [⟨2, 2⟩, ⟨1, 2⟩]] = .ok paths ∧
      paths.Sorted strLe ∧ paths.Nodup ∧
      (∀ p, p ∈ paths ↔ ∃ b ∈ [[(⟨1, 2⟩ : InotifyEvent), ⟨2, 2⟩, ⟨1, 2⟩], [⟨2, 2⟩, ⟨1, 2⟩]],
        ∃ ev ∈ b, dictGet [(1, "/b"), (2, "/a")] ev.wd = some p) ∧
      (∀ p, (∃ b ∈ [[(⟨1, 2⟩ : InotifyEvent), ⟨2, 2⟩, ⟨1, 2⟩], [⟨2, 2⟩, ⟨1, 2⟩]],
          ∃ ev ∈ b, dictGet [(1, "/b"), (2, "/a")] ev.wd = some p) →
        paths.count p = 1) :=
  C4_watch_get [(1, "/b"), (2, "/a")] (fun _ => false) (fun _ => none)
    [[⟨1, 2⟩, ⟨2, 2⟩, ⟨1, 2⟩], [⟨2, 2⟩, ⟨1, 2⟩]] (by decide) (by decide)

/-! ## C1: `legion.task_list` -/

theorem resolveNames_ok (tasks : List TaskNode) (tn : String) :
    ∀ (names : List String) (rl : List TaskNode),
      resolveNames tasks tn names = .ok rl →
      rl.map (·.name) = names ∧ ∀ u ∈ rl, u ∈ tasks := by
  intro names
  induction names with
  | nil =>
    intro rl h
    rw [resolveNames] at h
    cases h
    exact ⟨rfl, by simp⟩
  | cons r rest ih =>
    intro rl h
    rw [resolveNames] at h
    cases hf : tasks.find? (fun u => u.name = r) with
    | none => rw [hf] at h; cases h
    | some u =>
      rw [hf] at h
      cases hrec : resolveNames tasks tn rest with
      | error e => rw [hrec] at h; cases h
      | ok rl' =>
        rw [hrec] at h
        cases h
        obtain ⟨hmap, hmem⟩ := ih rl' hrec
        have hname : u.name = r := by
          have := List.find?_some hf
          simpa using this
        refine ⟨?_, ?_⟩
        · simp [hmap, hname]
        · intro v hv
          rcases List.mem_cons.mp hv with rfl | hv'
          · exact List.mem_of_find?_eq_some hf
          · exact hmem v hv'

theorem resolveNames_ok_of (tasks : List TaskNode) (tn : String) :
    ∀ names : List String, (∀ r ∈ names, ∃ u ∈ tasks, u.name = r) →
      ∃ rl, resolveNames tasks tn names = .ok rl := by
  intro names
  induction names with
  | nil => intro _; exact ⟨[], rfl⟩
  | cons r rest ih =>
    intro h
    obtain ⟨u, hu, hname⟩ := h r (List.mem_cons_self _ _)
    have hf : (tasks.find? (fun u => u.name = r)).isSome := by
      rw [List.find?_isSome]
      exact ⟨u, hu, by simp [hname]⟩
    obtain ⟨v, hv⟩ := Option.isSome_iff_exists.mp hf
    obtain ⟨rl', hrl'⟩ := ih (fun x hx => h x (List.mem_cons_of_mem _ hx))
    refine ⟨v :: rl', ?_⟩
    rw [resolveNames, hv, hrl']

theorem buildRequires_ok (tasks : List TaskNode) :
    ∀ (l : List TaskNode) (reqs : List (TaskNode × List TaskNode)),
      buildRequires tasks l = .ok reqs →
      reqs.map (·.1) = l ∧
      ∀ pr ∈ reqs, resolveRequires tasks pr.1 = .ok pr.2 := by
  intro l
  induction l with
  | nil =>
    intro reqs h
    rw [buildRequires] at h
    cases h
    exact ⟨rfl, by simp⟩
  | cons t rest ih =>
    intro reqs h
    rw [buildRequires] at h
    cases hres : resolveRequires tasks t with
    | error e => rw [hres] at h; cases h
    | ok rl =>
      rw [hres] at h
      cases hrec : buildRequires tasks rest with
      | error e => rw [hrec] at h; cases h
      | ok rest' =>
        rw [hrec] at h
        cases h
        obtain ⟨hmap, hmem⟩ := ih rest' hrec
        refine ⟨by simp [hmap], ?_⟩
        intro pr hpr
        rcases List.mem_cons.mp hpr with rfl | hpr'
        · exact hres
        · exact hmem pr hpr'

theorem buildRequires_ok_of (tasks : List TaskNode) :
    ∀ l : List TaskNode, (∀ t ∈ l, ∀ r ∈ t.requires, ∃ u ∈ tasks, u.name = r) →
      ∃ reqs, buildRequires tasks l = .ok reqs := by
  intro l
  induction l with
  | nil => intro _; exact ⟨[], rfl⟩
  | cons t rest ih =>
    intro h
    obtain ⟨rl, hrl⟩ := resolveNames_ok_of tasks t.name t.requires
      (h t (List.mem_cons_self _ _))
    obtain ⟨reqs', hreqs'⟩ := ih (fun x hx => h x (List.mem_cons_of_mem _ hx))
    refine ⟨(t, rl) :: reqs', ?_⟩
    rw [buildRequires]
    rw [show resolveRequires tasks t = .ok rl from hrl, hreqs']

theorem dictGet_of_mem_nodup {α β : Type} [DecidableEq α]
    {d : List (α × β)} {k : α} {v : β}
    (hnd : (d.map (·.1)).Nodup) (hm : (k, v) ∈ d) : dictGet d k = some v := by
  induction d with
  | nil => cases hm
  | cons p rest ih =>
    obtain ⟨a, b⟩ := p
    simp only [List.map_cons, List.nodup_cons] at hnd
    rcases List.mem_cons.mp hm with heq | hm'
    · cases heq
      rw [dictGet, if_pos rfl]
    · have hak : a ≠ k := by
        intro h
        subst h
        exact hnd.1 (List.mem_map_of_mem (·.1) hm')
      rw [dictGet, if_neg hak]
      exact ih hnd.2 hm'

theorem sched_pass_added (reqs : List (TaskNode × List TaskNode)) :
    ∀ (ts : List TaskNode) (done : List String) (order : List TaskNode) (ch : Bool),
      ∃ added : List TaskNode,
        ts.foldl (sched_step reqs) (done, order, ch) =
          (done ++ added.map (·.name), order ++ added, ch || !added.isEmpty) ∧
        (∀ a ∈ added, a ∈ ts) ∧ FreshNames done added ∧ PrecOK reqs done added := by
  intro ts
  induction ts with
  | nil =>
    intro done order ch
    refine ⟨[], by simp, by simp, trivial, trivial⟩
  | cons t rest ih =>
    intro done order ch
    rw [List.foldl_cons]
    by_cases hc : done.contains t.name = true
    · have hstep : sched_step reqs (done, order, ch) t = (done, order, ch) := by
        unfold sched_step
        dsimp only
        rw [if_pos hc]
      rw [hstep]
      obtain ⟨added, heq, hmem, hfr, hpr⟩ := ih done order ch
      exact ⟨added, heq, fun a ha => List.mem_cons_of_mem _ (hmem a ha), hfr, hpr⟩
    · by_cases hn : ((dictGet reqs t).getD []).countP (fun r => done.contains r.name) =
          ((dictGet reqs t).getD []).length
      · have hstep : sched_step reqs (done, order, ch) t =
            (done ++ [t.name], order ++ [t], true) := by
          unfold sched_step
          dsimp only
          rw [if_neg hc, if_pos hn]
        rw [hstep]
        obtain ⟨added, heq, hmem, hfr, hpr⟩ := ih (done ++ [t.name]) (order ++ [t]) true
        refine ⟨t :: added, ?_, ?_, ⟨fun h => hc (List.elem_iff.mpr h), hfr⟩, ⟨?_, hpr⟩⟩
        · rw [heq]
          simp
        · intro a ha
          rcases List.mem_cons.mp ha with rfl | ha'
          · exact List.mem_cons_self _ _
          · exact List.mem_cons_of_mem _ (hmem a ha')
        · intro r hr
          obtain ⟨u, hu, rfl⟩ := List.mem_map.mp hr
          have := List.countP_eq_length.mp hn u hu
          exact List.elem_iff.mp (by simpa using this)
      · have hstep : sched_step reqs (done, order, ch) t = (done, order, ch) := by
          unfold sched_step
          dsimp only
          rw [if_neg hc, if_neg hn]
        rw [hstep]
        obtain ⟨added, heq, hmem, hfr, hpr⟩ := ih done order ch
        exact ⟨added, heq, fun a ha => List.mem_cons_of_mem _ (hmem a ha), hfr, hpr⟩

theorem sched_pass_fires (reqs : List (TaskNode × List TaskNode)) :
    ∀ (ts : List TaskNode) (done : List String) (order : List TaskNode) (ch : Bool)
      (t : TaskNode), t ∈ ts → (ts.map (·.name)).Nodup → t.name ∉ done →
      (∀ r ∈ reqNamesOf reqs t, r ∈ done) →
      (ts.foldl (sched_step reqs) (done, order, ch)).2.2 = true := by
  intro ts
  induction ts with
  | nil => intro done order ch t ht; cases ht
  | cons u rest ih =>
    intro done order ch t ht hnd hnotin hready
    rw [List.foldl_cons]
    rcases List.mem_cons.mp ht with rfl | ht'
    · have hc : ¬(done.contains t.name = true) :=
        fun h => hnotin (List.elem_iff.mp h)
      have hn : ((dictGet reqs t).getD []).countP (fun r => done.contains r.name) =
          ((dictGet reqs t).getD []).length := by
        apply List.countP_eq_length.mpr
        intro r hr
        have : r.name ∈ done := hready r.name (List.mem_map_of_mem (·.name) hr)
        simpa using List.elem_iff.mpr this
      have hstep : sched_step reqs (done, order, ch) t =
          (done ++ [t.name], order ++ [t], true) := by
        unfold sched_step
        dsimp only
        rw [if_neg hc, if_pos hn]
      rw [hstep]
      obtain ⟨added, heq, -, -, -⟩ :=
        sched_pass_added reqs rest (done ++ [t.name]) (order ++ [t]) true
      rw [heq]
      rfl
    · have hune : u.name ≠ t.name := by
        simp only [List.map_cons, List.nodup_cons] at hnd
        intro he
        exact hnd.1 (he ▸ List.mem_map_of_mem (·.name) ht')
      have hnd' : (rest.map (·.name)).Nodup := by
        simp only [List.map_cons, List.nodup_cons] at hnd
        exact hnd.2
      by_cases hc : done.contains u.name = true
      · have hstep : sched_step reqs (done, order, ch) u = (done, order, ch) := by
          unfold sched_step
          dsimp only
          rw [if_pos hc]
        rw [hstep]
        exact ih done order ch t ht' hnd' hnotin hready
      · by_cases hn : ((dictGet reqs u).getD []).countP (fun r => done.contains r.name) =
            ((dictGet reqs u).getD []).length
        · have hstep : sched_step reqs (done, order, ch) u =
              (done ++ [u.name], order ++ [u], true) := by
            unfold sched_step
            dsimp only
            rw [if_neg hc, if_pos hn]
          rw [hstep]
          apply ih (done ++ [u.name]) (order ++ [u]) true t ht' hnd'
          · intro h
            rcases List.mem_append.mp h with h | h
            · exact hnotin h
            · simp only [List.mem_singleton] at h
              exact hune h.symm
          · intro r hr
            exact List.mem_append_left _ (hready r hr)
        · have hstep : sched_step reqs (done, order, ch) u = (done, order, ch) := by
            unfold sched_step
            dsimp only
            rw [if_neg hc, if_neg hn]
          rw [hstep]
          exact ih done order ch t ht' hnd' hnotin hready

theorem FreshNames_nodup :
    ∀ (added : List TaskNode) (seen : List String),
      seen.Nodup → FreshNames seen added → (seen ++ added.map (·.name)).Nodup := by
  intro added
  induction added with
  | nil => intro seen h _; simpa using h
  | cons a rest ih =>
    intro seen hs hf
    obtain ⟨ha, hrest⟩ := hf
    have hs' : (seen ++ [a.name]).Nodup := by
      rw [List.nodup_append]
      refine ⟨hs, List.nodup_singleton _, ?_⟩
      intro x hx hmem
      simp only [List.mem_singleton] at hmem
      subst hmem
      exact ha hx
    have h2 := ih (seen ++ [a.name]) hs' hrest
    simpa [List.append_assoc] using h2

theorem PrecOK_append (reqs : List (TaskNode × List TaskNode)) :
    ∀ (order added : List TaskNode) (seen : List String),
      PrecOK reqs seen order → PrecOK reqs (seen ++ order.map (·.name)) added →
      PrecOK reqs seen (order ++ added) := by
  intro order
  induction order with
  | nil => intro added seen _ h; simpa using h
  | cons t rest ih =>
    intro added seen hp ha
    obtain ⟨h1, h2⟩ := hp
    refine ⟨h1, ?_⟩
    apply ih added (seen ++ [t.name]) h2
    have hassoc : (seen ++ [t.name]) ++ rest.map (·.name) =
        seen ++ (t :: rest).map (·.name) := by
      simp
    rw [hassoc]
    exact ha

theorem PrecOK_split (reqs : List (TaskNode × List TaskNode)) :
    ∀ (pre : List TaskNode) (t : TaskNode) (post : List TaskNode) (seen : List String),
      PrecOK reqs seen (pre ++ t :: post) →
      ∀ r ∈ reqNamesOf reqs t, r ∈ seen ++ pre.map (·.name) := by
  intro pre
  induction pre with
  | nil =>
    intro t post seen hp r hr
    obtain ⟨h1, -⟩ := hp
    simpa using h1 r hr
  | cons p pre' ih =>
    intro t post seen hp r hr
    obtain ⟨-, h2⟩ := hp
    have := ih t post (seen ++ [p.name]) h2 r hr
    simpa [List.append_assoc] using this

theorem exists_unscheduled {inscope order : List TaskNode}
    (hnd : (inscope.map (·.name)).Nodup)
    (_hsub : ∀ t ∈ order, t ∈ inscope)
    (hlen : order.length < inscope.length) :
    ∃ n ∈ inscope.map (·.name), n ∉ order.map (·.name) := by
  by_contra h
  push_neg at h
  have hsp : List.Subperm (inscope.map (·.name)) (order.map (·.name)) := hnd.subperm h
  have hle := hsp.length_le
  simp only [List.length_map] at hle
  omega

theorem sched_loop_ok (inscope : List TaskNode)
    (reqs : List (TaskNode × List TaskNode))
    (hnames : (inscope.map (·.name)).Nodup)
    (hready : ∀ (done : List String) (order : List TaskNode),
      done = order.map (·.name) → (∀ t ∈ order, t ∈ inscope) →
      (order.map (·.name)).Nodup → order.length < inscope.length →
      ∃ t ∈ inscope, t.name ∉ done ∧ ∀ r ∈ reqNamesOf reqs t, r ∈ done) :
    ∀ (fuel : Nat) (done : List String) (order : List TaskNode) (cycle : Nat),
      done = order.map (·.name) → (order.map (·.name)).Nodup →
      (∀ t ∈ order, t ∈ inscope) → PrecOK reqs [] order →
      inscope.length - order.length ≤ fuel →
      ∃ final, sched_loop inscope reqs fuel done order cycle = .ok final ∧
        final.Perm inscope ∧ PrecOK reqs [] final := by
  intro fuel
  induction fuel with
  | zero =>
    intro done order cycle h1 h2 h3 h4 h5
    rw [sched_loop]
    by_cases hg : inscope.length ≤ order.length
    · rw [if_pos hg]
      refine ⟨order, rfl, ?_, h4⟩
      exact ((List.Nodup.of_map _ h2).subperm h3).perm_of_length_le hg
    · exfalso
      omega
  | succ fuel ih =>
    intro done order cycle h1 h2 h3 h4 h5
    rw [sched_loop]
    by_cases hg : inscope.length ≤ order.length
    · rw [if_pos hg]
      refine ⟨order, rfl, ?_, h4⟩
      exact ((List.Nodup.of_map _ h2).subperm h3).perm_of_length_le hg
    · rw [if_neg hg]
      have hlen : order.length < inscope.length := by omega
      obtain ⟨added, heq, hmem, hfr, hpr⟩ :=
        sched_pass_added reqs inscope done order false
      have heq' : sched_pass reqs inscope (done, order, false) =
          (done ++ added.map (·.name), order ++ added, false || !added.isEmpty) := by
        rw [sched_pass]
        exact heq
      obtain ⟨t, htin, htname, htready⟩ := hready done order h1 h3 h2 hlen
      have hfired : (sched_pass reqs inscope (done, order, false)).2.2 = true := by
        rw [sched_pass]
        exact sched_pass_fires reqs inscope done order false t htin hnames htname htready
      rw [heq'] at hfired
      dsimp only
      rw [heq']
      rw [if_pos hfired]
      have hadded : added ≠ [] := by
        intro hnil
        rw [hnil] at hfired
        simp at hfired
      have hdone2 : done.Nodup := h1 ▸ h2
      have hnd' : ((order ++ added).map (·.name)).Nodup := by
        rw [List.map_append, ← h1]
        exact FreshNames_nodup added done hdone2 hfr
      obtain ⟨final, hfin, hperm, hprec⟩ :=
        ih (done ++ added.map (·.name)) (order ++ added) (cycle + 1)
          (by rw [h1, List.map_append]) hnd'
          (by
            intro x hx
            rcases List.mem_append.mp hx with hx | hx
            · exact h3 x hx
            · exact hmem x hx)
          (by
            apply PrecOK_append reqs order added [] h4
            rw [List.nil_append, ← h1]
            exact hpr)
          (by
            have : 1 ≤ added.length := by
              cases added with
              | nil => exact absurd rfl hadded
              | cons a rest => simp
            rw [List.length_append]
            omega)
      exact ⟨final, hfin, hperm, hprec⟩

theorem sched_loop_conflict (inscope : List TaskNode)
    (reqs : List (TaskNode × List TaskNode))
    (hnames : (inscope.map (·.name)).Nodup) :
    ∀ (fuel : Nat) (done : List String) (order : List TaskNode) (cycle : Nat)
      (c : Nat) (d rem : List String),
      done = order.map (·.name) → (order.map (·.name)).Nodup →
      (∀ t ∈ order, t ∈ inscope) →
      sched_loop inscope reqs fuel done order cycle =
        .error (.startupOrderConflict c d rem) →
      rem = inscope.map (·.name) ∧ ∃ n ∈ rem, n ∉ d := by
  intro fuel
  induction fuel with
  | zero =>
    intro done order cycle c d rem h1 h2 h3 herr
    rw [sched_loop] at herr
    by_cases hg : inscope.length ≤ order.length
    · rw [if_pos hg] at herr
      cases herr
    · rw [if_neg hg] at herr
      cases herr
  | succ fuel ih =>
    intro done order cycle c d rem h1 h2 h3 herr
    rw [sched_loop] at herr
    by_cases hg : inscope.length ≤ order.length
    · rw [if_pos hg] at herr
      cases herr
    · rw [if_neg hg] at herr
      obtain ⟨added, heq, hmem, hfr, hpr⟩ :=
        sched_pass_added reqs inscope done order false
      have heq' : sched_pass reqs inscope (done, order, false) =
          (done ++ added.map (·.name), order ++ added, false || !added.isEmpty) := by
        rw [sched_pass]
        exact heq
      dsimp only at herr
      rw [heq'] at herr
      by_cases hch : (false || !added.isEmpty) = true
      · rw [if_pos hch] at herr
        have hdone2 : done.Nodup := h1 ▸ h2
        have hnd' : ((order ++ added).map (·.name)).Nodup := by
          rw [List.map_append, ← h1]
          exact FreshNames_nodup added done hdone2 hfr
        exact ih (done ++ added.map (·.name)) (order ++ added) (cycle + 1) c d rem
          (by rw [h1, List.map_append]) hnd'
          (by
            intro x hx
            rcases List.mem_append.mp hx with hx | hx
            · exact h3 x hx
            · exact hmem x hx)
          herr
      · rw [if_neg hch] at herr
        have hnil : added = [] := by
          cases added with
          | nil => rfl
          | cons a rest => simp at hch
        subst hnil
        simp only [List.map_nil, List.append_nil] at herr
        cases herr
        refine ⟨rfl, ?_⟩
        obtain ⟨n, hn, hnot⟩ := exists_unscheduled hnames h3 (by omega)
        exact ⟨n, hn, h1 ▸ hnot⟩

/-- C1 counterexample: `c1Tasks` has no requirement cycles (witnessed by
`c1Rank`), yet `task_list` raises a startup-order conflict because scoped
`A` requires the unscoped `B`, which the loop can never schedule; moreover
the error reports `["C", "A"]` — *all* scoped task names — as remaining,
although `C` was scheduled (the source subtracts a set of name strings
from a set of task objects, which removes nothing). -/
theorem C1_counterexample :
    NoRequireCycles c1Tasks c1Rank ∧
    task_list c1Tasks = .error (.startupOrderConflict 2 ["C"] ["C", "A"]) := by
  exact ⟨by decide, by decide⟩

/-- C1 (amended): for a configuration with distinct task names in which
every requirement of a scoped task names an existing, scoped task and the
scoped tasks have no requirement cycles, `task_list()` returns each scoped
task exactly once with every required task appearing earlier; when the
sort cannot schedule every scoped task it raises a `TaskError` that
reports the processed name set and — because task objects are compared
against name strings — lists every scoped task name (not only the
unscheduled ones, of which there is at least one) as remaining. -/
theorem C1_task_list_amended :
    (∀ (tasks : List TaskNode) (rank : String → Nat),
      (tasks.map (·.name)).Nodup →
      (∀ t ∈ scopedOf tasks, ∀ r ∈ t.requires,
        ∃ u ∈ tasks, u.name = r ∧ u.participant = true) →
      NoRequireCycles tasks rank →
      ∃ order, task_list tasks = .ok order ∧ order.Perm (scopedOf tasks) ∧
        ∀ pre t post, order = pre ++ t :: post →
          ∀ r ∈ t.requires, r ∈ pre.map (·.name)) ∧
    (∀ (tasks : List TaskNode) (c : Nat) (d rem : List String),
      (tasks.map (·.name)).Nodup →
      task_list tasks = .error (.startupOrderConflict c d rem) →
      rem = (scopedOf tasks).map (·.name) ∧ ∃ n ∈ rem, n ∉ d) := by
  have hkey : ∀ (tasks : List TaskNode), (tasks.map (·.name)).Nodup →
      ((scopedOf tasks).map (·.name)).Nodup := by
    intro tasks h
    exact h.sublist ((List.filter_sublist tasks).map (·.name))
  constructor
  · intro tasks rank hnodup hscope hrank
    have hnames := hkey tasks hnodup
    obtain ⟨reqs, hb⟩ := buildRequires_ok_of tasks (scopedOf tasks)
      (by
        intro t ht r hr
        obtain ⟨u, hu, hn, -⟩ := hscope t ht r hr
        exact ⟨u, hu, hn⟩)
    obtain ⟨hbmap, hbres⟩ := buildRequires_ok tasks (scopedOf tasks) reqs hb
    have hreqfacts : ∀ t ∈ scopedOf tasks, reqNamesOf reqs t = t.requires := by
      intro t ht
      have : t ∈ reqs.map (·.1) := hbmap ▸ ht
      obtain ⟨pr, hpr, hpr1⟩ := List.mem_map.mp this
      have hget : dictGet reqs t = some pr.2 := by
        apply dictGet_of_mem_nodup (hbmap ▸ List.Nodup.of_map _ hnames)
        rw [← hpr1]
        exact hpr
      have hres := hbres pr hpr
      rw [hpr1] at hres
      obtain ⟨hmapn, -⟩ := resolveNames_ok tasks t.name t.requires pr.2 hres
      rw [reqNamesOf, hget]
      exact hmapn
    have hready : ∀ (done : List String) (order : List TaskNode),
        done = order.map (·.name) → (∀ t ∈ order, t ∈ scopedOf tasks) →
        (order.map (·.name)).Nodup → order.length < (scopedOf tasks).length →
        ∃ t ∈ scopedOf tasks, t.name ∉ done ∧
          ∀ r ∈ reqNamesOf reqs t, r ∈ done := by
      intro done order h1 h3 h2 hlen
      have hUne : (scopedOf tasks).filter (fun t => !done.contains t.name) ≠ [] := by
        intro hU
        obtain ⟨n, hn, hnot⟩ := exists_unscheduled hnames h3 hlen
        obtain ⟨u, hu, rfl⟩ := List.mem_map.mp hn
        have huU : u ∈ (scopedOf tasks).filter (fun t => !done.contains t.name) := by
          apply List.mem_filter.mpr
          refine ⟨hu, ?_⟩
          simp only [Bool.not_eq_true']
          rw [← Bool.not_eq_true]
          intro hcon
          exact (h1 ▸ hnot) (List.elem_iff.mp hcon)
        rw [hU] at huU
        cases huU
      cases ham : ((scopedOf tasks).filter (fun t => !done.contains t.name)).argmin
          (fun t => rank t.name) with
      | none => exact absurd (List.argmin_eq_none.mp ham) hUne
      | some m =>
        have hmU := List.argmin_mem ham
        obtain ⟨hmin, hmdone⟩ := List.mem_filter.mp hmU
        have hmnot : m.name ∉ done := by
          simp only [Bool.not_eq_true'] at hmdone
          intro hcon
          have hcon' : done.contains m.name = true := List.elem_iff.mpr hcon
          rw [hcon'] at hmdone
          cases hmdone
        refine ⟨m, hmin, hmnot, ?_⟩
        intro r hr
        rw [hreqfacts m hmin] at hr
        by_contra hrnot
        obtain ⟨u, hu, huname, hupart⟩ := hscope m hmin r hr
        have huin : u ∈ scopedOf tasks := List.mem_filter.mpr ⟨hu, by simp [hupart]⟩
        have huU : u ∈ (scopedOf tasks).filter (fun t => !done.contains t.name) := by
          apply List.mem_filter.mpr
          refine ⟨huin, ?_⟩
          simp only [Bool.not_eq_true']
          rw [← Bool.not_eq_true]
          intro hcon
          exact hrnot (huname ▸ List.elem_iff.mp hcon)
        have hnlt := List.not_lt_of_mem_argmin huU ham
        have hlt := hrank m hmin r hr
        rw [← huname] at hlt
        exact hnlt hlt
    obtain ⟨final, hfin, hperm, hprec⟩ :=
      sched_loop_ok (scopedOf tasks) reqs hnames hready
        ((scopedOf tasks).length + 1) [] [] 0 rfl (by simp) (by simp) trivial
        (by omega)
    refine ⟨final, ?_, hperm, ?_⟩
    · rw [task_list]
      rw [hb]
      exact hfin
    · intro pre t post hsplit r hr
      have htmem : t ∈ final := by
        rw [hsplit]
        exact List.mem_append_right _ (List.mem_cons_self _ _)
      have htin : t ∈ scopedOf tasks := hperm.mem_iff.mp htmem
      have := PrecOK_split reqs pre t post [] (hsplit ▸ hprec) r
        (by rw [hreqfacts t htin]; exact hr)
      simpa using this
  · intro tasks c d rem hnodup herr
    have hnames := hkey tasks hnodup
    rw [task_list] at herr
    cases hb : buildRequires tasks (scopedOf tasks) with
    | error e =>
      rw [hb] at herr
      cases herr
    | ok reqs =>
      rw [hb] at herr
      exact sched_loop_conflict (scopedOf tasks) reqs hnames
        ((scopedOf tasks).length + 1) [] [] 0 c d rem rfl (by simp) (by simp) herr

/-- Witness for `C1_task_list_amended`: a two-task chain in scope, and the
conflict raised by `c1Tasks`. -/
theorem C1_task_list_amended_witness :
    (∃ order, task_list [⟨"w", ["v"], true⟩, ⟨"v", [], true⟩] = .ok order ∧
      order.Perm (scopedOf [⟨"w", ["v"], true⟩, ⟨"v", [], true⟩]) ∧
      ∀ pre t post, order = pre ++ t :: post →
        ∀ r ∈ t.requires, r ∈ pre.map (·.name)) ∧
    (["C", "A"] = (scopedOf c1Tasks).map (·.name) ∧ ∃ n ∈ ["C", "A"], n ∉ ["C"]) :=
  ⟨C1_task_list_amended.1 [⟨"w", ["v"], true⟩, ⟨"v", [], true⟩]
      (fun n => if n = "w" then 1 else 0) (by decide) (by decide) (by decide),
   C1_task_list_amended.2 c1Tasks 2 ["C"] ["C", "A"] (by decide)
      (by decide)⟩

end Taskforce
